import Mathlib

/-!
Verification of the PersonaPath career-guidance application.

Python strings are modelled as `List Char` (`Str`), and the Python string
operations used by the code (`lower`, `strip`, `split`, `in`, `startswith`)
are given executable Lean models below.  Pure functions of the source are
translated into Lean functions; the SQLite/PostgreSQL tables are modelled as
lists of row structures, and SQL statements by the list operations they
perform.  External library calls that the repository does not define
(`hashlib.sha256`, `re.search`) are taken as parameters of the definitions
that use them.
-/

/-- Python strings are modelled as lists of characters. -/
abbrev Str := List Char

/-- Model of Python `str.lower` for the ASCII range (the only characters the
repository's data uses). -/
def lowerChar (c : Char) : Char :=
  if 'A' ≤ c ∧ c ≤ 'Z' then Char.ofNat (c.toNat + 32) else c

/-- Model of Python `s.lower()`. -/
def pyLower (s : Str) : Str := s.map lowerChar

/-- Python whitespace test used by `str.strip()` (space, tab, CR, LF). -/
def isSpaceChar (c : Char) : Bool := c = ' ' || c = '\t' || c = '\r' || c = '\n'

/-- Model of Python `s.lstrip()`. -/
def pyLstrip (s : Str) : Str := s.dropWhile isSpaceChar

/-- Model of Python `s.rstrip()`. -/
def pyRstrip (s : Str) : Str := (s.reverse.dropWhile isSpaceChar).reverse

/-- Model of Python `s.strip()`. -/
def pyStrip (s : Str) : Str := pyRstrip (pyLstrip s)

/-- Model of Python `s.lstrip(chars)`: drop leading characters belonging to
`chars`. -/
def pyLstripChars (chars : Str) (s : Str) : Str :=
  s.dropWhile (fun c => chars.contains c)

/-- Bool test that `p` is a prefix of `s`, modelling `s.startswith(p)`. -/
def isPrefixList (p s : Str) : Bool :=
  match p, s with
  | [], _ => true
  | _ :: _, [] => false
  | a :: p', b :: s' => a = b && isPrefixList p' s'

/-- Model of the Python substring test `needle in hay`. -/
def containsSub (hay needle : Str) : Bool :=
  match hay with
  | [] => needle.isEmpty
  | _ :: t => isPrefixList needle hay || containsSub t needle

/-- Model of Python `s.split(sep)` for a one-character separator `sep`. -/
def splitOnChar (sep : Char) : Str → List Str
  | [] => [[]]
  | c :: cs =>
    let r := splitOnChar sep cs
    if c = sep then [] :: r
    else match r with
      | [] => [[c]]
      | g :: gs => (c :: g) :: gs

/-- Digits-to-number helper for the model of Python `int(...)`. -/
def digitsToNat (acc : Nat) : Str → Nat
  | [] => acc
  | c :: cs => digitsToNat (acc * 10 + (c.toNat - '0'.toNat)) cs

/-- Model of Python `int(s)`: optional surrounding whitespace, an optional
sign, then a nonempty run of decimal digits; anything else raises
`ValueError`, modelled by `none`. -/
def pyInt (s : Str) : Option Int :=
  let t := pyStrip s
  match t with
  | '-' :: ds =>
    if ds ≠ [] ∧ ds.all Char.isDigit then some (-(digitsToNat 0 ds : Int)) else none
  | '+' :: ds =>
    if ds ≠ [] ∧ ds.all Char.isDigit then some (digitsToNat 0 ds : Int) else none
  | ds =>
    if ds ≠ [] ∧ ds.all Char.isDigit then some (digitsToNat 0 ds : Int) else none

/-! ## API authentication (`src/api_main.py`)

`get_current_user` inspects the bearer token; `login` issues tokens of the
form `"user_<id>"`.  A request outcome is either an authenticated user id,
an `HTTPException(401)`, or an uncaught Python exception (which FastAPI
turns into a 500 response). -/

/-- Outcome of the `get_current_user` dependency. -/
inductive AuthOutcome where
  | ok (user_id : Int)
  | unauthorized
  | valueError
deriving DecidableEq, Repr

/-- Model of `get_current_user` in `src/api_main.py`: accept tokens starting
with `"user_"`, parsing `int(token.split("_")[1])`; otherwise raise HTTP 401.
A failing `int(...)` raises an uncaught `ValueError`. -/
def get_current_user (token : Str) : AuthOutcome :=
  if isPrefixList "user_".data token then
    match pyInt ((splitOnChar '_' token).getD 1 []) with
    | some n => .ok n
    | none => .valueError
  else .unauthorized

/-- The token string issued by `/auth/login` for a user with id `n`:
`f"user_{user['id']}"`. -/
def loginToken (n : Nat) : Str := "user_".data ++ (toString n).data

/-! ## Blanket exception handling in the API endpoints

Every endpoint body is wrapped in `try ... except Exception as e` which
re-raises `HTTPException(500, "<prefix>: " + str(e))`.  The wrapped
operation is modelled as an `Except String` value (its exception message
when it raises). -/

/-- An HTTP response of the API model: success with a body, or an error
status with a detail string. -/
inductive HttpResult (A : Type) where
  | ok (body : A)
  | httpError (code : Nat) (detail : Str)
deriving DecidableEq, Repr

/-- Model of the `try/except` wrapper the endpoints use: on success apply the
endpoint's response builder, on an exception `e` answer
HTTP 500 with `detail = prefixMsg ++ str(e)`. -/
def exceptWrap {A B : Type} (prefixMsg : Str) (onOk : A → B)
    (op : Except Str A) : HttpResult B :=
  match op with
  | .ok a => .ok (onOk a)
  | .error e => .httpError 500 (prefixMsg ++ e)

/-- Model of `POST /chat/query` (`chat_query` in `src/api_main.py`): the call
to `rag_pipeline.query_documents` is modelled by its outcome `op`; on
success the body is the triple (query, response, timestamp). -/
def chat_query (query : Str) (timestamp : Str) (op : Except Str Str) :
    HttpResult (Str × Str × Str) :=
  exceptWrap "Error processing query: ".data (fun r => (query, r, timestamp)) op

/-! ## AuthManager (`src/core/auth.py`) and the `users` table

The `users` table (`src/core/database.py`) has a UNIQUE constraint on
`username`; an INSERT violating it raises `IntegrityError`, which
`register_user` catches and converts to `False`.  `hashlib.sha256(...)
.hexdigest()` is an external library function: it is modelled by a parameter
`sha256hex : Str → Str`.  Crucially it is a function of the password bytes
alone — no salt enters the computation. -/

/-- A row of the `users` table. -/
structure UserRow where
  id : Nat
  username : Str
  password_hash : Str
  role : Str
  created_at : Nat
deriving DecidableEq, Repr

/-- The `users` table state: its rows in insertion order, the next SERIAL
id, and the clock used for `created_at` defaults. -/
structure UsersTable where
  rows : List UserRow
  nextId : Nat
  now : Nat
deriving DecidableEq, Repr

/-- Model of `AuthManager._hash_password`: the unsalted SHA-256 hex digest of
the UTF-8 encoded password, `sha256hex` standing for the external
`hashlib` call. -/
def hash_password (sha256hex : Str → Str) (password : Str) : Str :=
  sha256hex password

/-- Model of `AuthManager.register_user`: INSERT a new row; the UNIQUE
constraint on `username` makes the insert fail (returning `False`, table
unchanged) exactly when the username is already stored. -/
def register_user (sha256hex : Str → Str) (db : UsersTable)
    (username password role : Str) : Bool × UsersTable :=
  if db.rows.any (fun r => r.username = username) then
    (false, db)
  else
    (true,
     { rows := db.rows ++
         [{ id := db.nextId
            username := username
            password_hash := hash_password sha256hex password
            role := role
            created_at := db.now }]
       nextId := db.nextId + 1
       now := db.now })

/-- Model of `AuthManager.authenticate_user`: SELECT the first row whose
`username` and `password_hash` both match. -/
def authenticate_user (sha256hex : Str → Str) (db : UsersTable)
    (username password : Str) : Option UserRow :=
  db.rows.find? (fun r =>
    r.username = username ∧ r.password_hash = hash_password sha256hex password)

/-- Model of the `/auth/register` endpoint: HTTP 200 with a message on
success, HTTP 400 "Username already exists" otherwise. -/
def register_endpoint (sha256hex : Str → Str) (db : UsersTable)
    (username password role : Str) : HttpResult Str × UsersTable :=
  let res := register_user sha256hex db username password role
  if res.1 then (.ok "User registered successfully".data, res.2)
  else (.httpError 400 "Username already exists".data, res.2)

/-- Model of the `/auth/login` endpoint: on successful authentication return
the token `f"user_{user['id']}"` together with the user; otherwise
HTTP 401. -/
def login (sha256hex : Str → Str) (db : UsersTable)
    (username password : Str) : HttpResult (Str × UserRow) :=
  match authenticate_user sha256hex db username password with
  | some user => .ok (loginToken user.id, user)
  | none => .httpError 401 "Invalid username or password".data

/-! ## SkillAnalyzer (`src/core/skill_analyzer.py`)

`analyze_skill_gap` looks the target role up by id, parses its
`skills_required` text, and splits the parsed skills into matching and
missing ones by normalized membership in the caller's current skills.
The `categorized_gaps` and `recommendations` fields do not appear in any
claim and are omitted from the result record. -/

/-- A row of the `job_roles` table (`src/core/database.py`); nullable
columns are `Option`s, `created_at` is a timestamp ordered by `≤`. -/
structure JobRole where
  id : Nat
  title : Str
  department : Option Str
  level : Option Str
  description : Option Str
  skills_required : Option Str
  created_at : Nat
deriving DecidableEq, Repr

/-- Model of `SkillAnalyzer._parse_skills`: split on the first delimiter of
`, ; \n • -` occurring in the text (the whole text if none does), then for
each piece strip whitespace, strip leading bullet/number characters, strip
again, and keep only pieces of length `> 1`. -/
def parse_skills (skills_text : Str) : List Str :=
  if skills_text = [] then []
  else
    let skills :=
      match ([',', ';', '\n', '•', '-'] : List Char).find?
          (fun d => containsSub skills_text [d]) with
      | some d => splitOnChar d skills_text
      | none => [skills_text]
    (skills.map (fun sk => pyStrip (pyLstripChars "•-*123456789. ".data (pyStrip sk)))).filter
      (fun sk => decide (sk ≠ [] ∧ sk.length > 1))

/-- Model of Python `round(x, 1)` on the exact rational value (the source
computes in floats; `round` here rounds half up where Python rounds half to
even, a difference only at exact ties, which no claim depends on). -/
def roundTo1 (q : ℚ) : ℚ := (round (q * 10) : ℚ) / 10

/-- Result record of `analyze_skill_gap` (claim-relevant fields). -/
structure SkillGapResult where
  target_role : Str
  match_percentage : ℚ
  matching_skills : List Str
  missing_skills : List Str
  total_required_skills : Nat
  skills_to_develop : Nat
deriving DecidableEq, Repr

/-- Model of `SkillAnalyzer.analyze_skill_gap`. -/
def analyze_skill_gap (current_skills : List Str) (target_role_id : Nat)
    (roles : List JobRole) : Except Str SkillGapResult :=
  match roles.find? (fun r => decide (r.id = target_role_id)) with
  | none => .error "Target role not found".data
  | some target_role =>
    let required_skills := parse_skills (target_role.skills_required.getD [])
    let current_skills_norm := current_skills.map (fun s => pyStrip (pyLower s))
    let matching_skills := required_skills.filter
      (fun s => current_skills_norm.contains (pyStrip (pyLower s)))
    let missing_skills := required_skills.filter
      (fun s => !(current_skills_norm.contains (pyStrip (pyLower s))))
    let total_required : Nat :=
      if required_skills ≠ [] then required_skills.length else 1
    .ok { target_role := target_role.title
          match_percentage :=
            roundTo1 ((matching_skills.length : ℚ) / (total_required : ℚ) * 100)
          matching_skills := matching_skills
          missing_skills := missing_skills
          total_required_skills := required_skills.length
          skills_to_develop := missing_skills.length }

/-- Modelled from the spec's words for claim C2: the set difference between
the comma-split `skills_required` string and the caller's current skills,
membership compared after lowercasing and trimming whitespace. -/
def commaSplitMissing (skills_required : Str) (current_skills : List Str) : List Str :=
  ((splitOnChar ',' skills_required).map pyStrip).filter
    (fun s =>
      !((current_skills.map (fun c => pyStrip (pyLower c))).contains (pyStrip (pyLower s))))

/-! ## MentorSystem (`src/core/mentor_system.py`)

`find_mentors` scores every mentor, keeps the strictly positive scores,
sorts descending (Python's stable sort) and truncates to `limit`.  The
score accumulates integral bonuses, so it is modelled as a `Nat`.  The
`match_reasons` field does not appear in any claim and is omitted. -/

/-- A row of the `mentors` table. -/
structure Mentor where
  id : Nat
  name : Str
  current_role : Str
  previous_roles : Str
  expertise : Str
deriving DecidableEq, Repr

/-- The parts of the user profile dict that `find_mentors` reads
(`user_profile.get('current_role', '')` and `user_profile.get('goals', '')`;
an absent key is the empty string). -/
structure UserProfile where
  current_role : Str
  goals : Str
deriving DecidableEq, Repr

/-- Model of `MentorSystem._extract_role_keywords`: the lowercased role
itself followed by the fixed key terms occurring in it. -/
def extract_role_keywords (role : Str) : List Str :=
  let role_lower := pyLower role
  role_lower ::
    ((["engineer", "manager", "director", "analyst", "scientist",
       "product", "data", "software", "senior", "lead", "principal",
       "marketing", "sales", "operations", "finance", "hr"].map String.data).filter
      (fun t => containsSub role_lower t))

/-- Model of `MentorSystem._extract_keywords`: the fixed career keywords
occurring in the lowercased text. -/
def extract_keywords (text : Str) : List Str :=
  let text_lower := pyLower text
  (["leadership", "management", "technical", "strategy", "growth",
    "transition", "development", "skills", "experience", "mentorship"].map String.data).filter
    (fun kw => containsSub text_lower kw)

/-- Model of `MentorSystem._calculate_mentor_score`. -/
def calculate_mentor_score (mentor : Mentor) (user_profile : UserProfile)
    (target_role : Option Str) : Nat :=
  let mentor_current_role := pyLower mentor.current_role
  let mentor_previous_roles := pyLower mentor.previous_roles
  let mentor_expertise := pyLower mentor.expertise
  let user_current_role := pyLower user_profile.current_role
  let user_goals := pyLower user_profile.goals
  (match target_role with
   | none => 0
   | some tr =>
     let target_role_lower := pyLower tr
     (if containsSub mentor_current_role target_role_lower then 30 else 0) +
     (if containsSub mentor_previous_roles target_role_lower then 20 else 0) +
     5 * (extract_role_keywords tr).countP (fun kw => containsSub mentor_expertise kw)) +
  (if user_current_role ≠ [] ∧ mentor_previous_roles ≠ [] then
     10 * (extract_role_keywords user_current_role).countP
       (fun kw => containsSub mentor_previous_roles kw)
   else 0) +
  (if user_goals ≠ [] then
     8 * (extract_keywords user_goals).countP
       (fun kw => containsSub mentor_expertise kw)
   else 0) +
  (if (splitOnChar ',' mentor_previous_roles).length > 2 then 5 else 0)

/-- A mentor together with its `match_score` field. -/
structure ScoredMentor where
  mentor : Mentor
  match_score : Nat
deriving DecidableEq, Repr

/-- Python's stable descending sort on `match_score`
(`scored_mentors.sort(key=..., reverse=True)`): a stable insertion sort for
the descending order on scores. -/
def sortByScoreDesc (l : List ScoredMentor) : List ScoredMentor :=
  List.insertionSort (fun a b => b.match_score ≤ a.match_score) l

instance : IsTotal ScoredMentor (fun a b => b.match_score ≤ a.match_score) :=
  ⟨fun a b => Nat.le_total b.match_score a.match_score⟩

instance : IsTrans ScoredMentor (fun a b => b.match_score ≤ a.match_score) :=
  ⟨fun _ _ _ h1 h2 => le_trans h2 h1⟩

/-- Model of `MentorSystem.find_mentors`. -/
def find_mentors (mentors : List Mentor) (user_profile : UserProfile)
    (target_role : Option Str) (limit : Nat) : List ScoredMentor :=
  let scored :=
    (mentors.filter
        (fun m => decide (0 < calculate_mentor_score m user_profile target_role))).map
      (fun m => { mentor := m
                  match_score := calculate_mentor_score m user_profile target_role })
  (sortByScoreDesc scored).take limit

/-! ## DatabaseManager.search_job_roles (`src/core/database.py`)

The SQL query filters with `LOWER(field) LIKE '%<query.lower()>%'` over
title, department, description and skills_required, and orders by the CASE
priority (title 1, department 2, skills 3, else 4) and then `created_at
DESC`.  `sqlLike` is the SQL LIKE pattern matcher (`%` any run, `_` any one
character); a NULL column never matches. -/

/-- Try a test on every suffix of `s` (including `s` itself and `[]`). -/
def anySuffix (f : Str → Bool) : Str → Bool
  | [] => f []
  | c :: s' => f (c :: s') || anySuffix f s'

/-- SQL `LIKE` pattern matching: `%` matches any run of characters (tried by
matching the rest of the pattern against every suffix), `_` any single
character, anything else itself. -/
def sqlLike : Str → Str → Bool
  | [], s => s.isEmpty
  | c :: ps, s =>
    if c = '%' then anySuffix (sqlLike ps) s
    else
      match s with
      | [] => false
      | d :: s' => if c = '_' then sqlLike ps s' else c = d && sqlLike ps s'

/-- `LOWER(field) LIKE pat` for a nullable column (NULL never matches). -/
def likeField (pat : Str) : Option Str → Bool
  | none => false
  | some s => sqlLike pat (pyLower s)

/-- The CASE expression of the ORDER BY clause. -/
def caseKey (pat : Str) (r : JobRole) : Nat :=
  if likeField pat (some r.title) then 1
  else if likeField pat r.department then 2
  else if likeField pat r.skills_required then 3
  else 4

/-- The ORDER BY relation: CASE priority ascending, then `created_at`
descending. -/
def searchLe (pat : Str) (a b : JobRole) : Prop :=
  caseKey pat a < caseKey pat b ∨
    (caseKey pat a = caseKey pat b ∧ b.created_at ≤ a.created_at)

instance (pat : Str) : DecidableRel (searchLe pat) := fun a b => by
  unfold searchLe; infer_instance

instance (pat : Str) : IsTotal JobRole (searchLe pat) :=
  ⟨fun a b => by unfold searchLe; omega⟩

instance (pat : Str) : IsTrans JobRole (searchLe pat) :=
  ⟨fun a b c => by unfold searchLe; omega⟩

/-- The WHERE clause: the pattern matches one of the four columns. -/
def rowMatches (pat : Str) (r : JobRole) : Bool :=
  likeField pat (some r.title) || likeField pat r.department ||
    likeField pat r.description || likeField pat r.skills_required

/-- Model of `DatabaseManager.search_job_roles`. -/
def search_job_roles (query : Str) (rows : List JobRole) : List JobRole :=
  let pat := '%' :: (pyLower query ++ ['%'])
  List.insertionSort (searchLe pat) (rows.filter (rowMatches pat))

/-- Plain substring reading of the claim for `search_job_roles`: the
lowercased query occurs in the lowercased column. -/
def substrField (query : Str) : Option Str → Bool
  | none => false
  | some s => containsSub (pyLower s) (pyLower query)

/-- Plain substring reading of the claim's WHERE condition. -/
def substrMatches (query : Str) (r : JobRole) : Bool :=
  substrField query (some r.title) || substrField query r.department ||
    substrField query r.description || substrField query r.skills_required

/-- The claim's group priority under the plain substring reading: title
matches first, then department, then skills, then everything else. -/
def substrKey (query : Str) (r : JobRole) : Nat :=
  if substrField query (some r.title) then 1
  else if substrField query r.department then 2
  else if substrField query r.skills_required then 3
  else 4

/-- The claim's result order: group priority ascending, `created_at`
descending within a group. -/
def substrLe (query : Str) (a b : JobRole) : Prop :=
  substrKey query a < substrKey query b ∨
    (substrKey query a = substrKey query b ∧ b.created_at ≤ a.created_at)

/-! ## Role identification in the RAG variants
(`src/core/personapath_rag.py` and `src/core/fast_personapath.py`)

Both `_identify_role_in_query` and `_identify_role_fast` first test for
transition-trigger words, in that case extract a candidate with
`re.search` patterns and look it up in a keyword→title mapping, and
otherwise return the first mapping key occurring in the query.  The
external `re.search` engine is modelled by a parameter
`reSearch : pattern → text → captured group 1`. -/

/-- The `role_mappings` dict of `PersonaPathRAG._identify_role_in_query`,
in insertion order. -/
def role_mappings_rag : List (Str × Str) :=
  [("sde", "Software Developer"),
   ("software engineer", "Software Developer"),
   ("software development", "Software Developer"),
   ("software developer", "Software Developer"),
   ("developer", "Software Developer"),
   ("data science", "Data Scientist"),
   ("data scientist", "Data Scientist"),
   ("data analyst", "Data Analyst"),
   ("analyst", "Data Analyst"),
   ("ui/ux", "UI/UX Designer"),
   ("designer", "UI/UX Designer"),
   ("product manager", "Product Manager"),
   ("product management", "Product Manager"),
   ("pm", "Product Manager"),
   ("cashier", "Cashier"),
   ("customer support", "Customer Support Specialist"),
   ("support specialist", "Customer Support Specialist"),
   ("hr manager", "HR Manager"),
   ("human resources", "HR Manager"),
   ("devops", "DevOps Engineer"),
   ("qa", "Quality Assurance Engineer"),
   ("quality assurance", "Quality Assurance Engineer"),
   ("financial analyst", "Financial Analyst"),
   ("finance", "Financial Analyst"),
   ("marketing", "Marketing Specialist"),
   ("sales", "Sales Representative"),
   ("content writer", "Content Writer"),
   ("writer", "Content Writer")].map (fun kv => (kv.1.data, kv.2.data))

/-- The cached mapping of `FastPersonaPath._get_role_mapping`, in insertion
order. -/
def role_mapping_fast : List (Str × Str) :=
  [("sde", "Software Developer"),
   ("software engineer", "Software Developer"),
   ("software development", "Software Developer"),
   ("software developer", "Software Developer"),
   ("developer", "Software Developer"),
   ("programmer", "Software Developer"),
   ("coding", "Software Developer"),
   ("programming", "Software Developer"),
   ("data science", "Data Scientist"),
   ("data scientist", "Data Scientist"),
   ("ml engineer", "Data Scientist"),
   ("machine learning", "Data Scientist"),
   ("data analyst", "Data Analyst"),
   ("analyst", "Data Analyst"),
   ("data analysis", "Data Analyst"),
   ("ui/ux", "UI/UX Designer"),
   ("designer", "UI/UX Designer"),
   ("ux designer", "UI/UX Designer"),
   ("ui designer", "UI/UX Designer"),
   ("product manager", "Product Manager"),
   ("product management", "Product Manager"),
   ("pm", "Product Manager"),
   ("cashier", "Cashier"),
   ("retail", "Cashier"),
   ("customer support", "Customer Support Specialist"),
   ("support specialist", "Customer Support Specialist"),
   ("customer service", "Customer Support Specialist"),
   ("hr manager", "HR Manager"),
   ("human resources", "HR Manager"),
   ("hr", "HR Manager"),
   ("devops", "DevOps Engineer"),
   ("dev ops", "DevOps Engineer"),
   ("qa", "Quality Assurance Engineer"),
   ("quality assurance", "Quality Assurance Engineer"),
   ("testing", "Quality Assurance Engineer"),
   ("financial analyst", "Financial Analyst"),
   ("finance", "Financial Analyst"),
   ("marketing", "Marketing Specialist"),
   ("sales", "Sales Representative"),
   ("content writer", "Content Writer"),
   ("writer", "Content Writer"),
   ("content", "Content Writer")].map (fun kv => (kv.1.data, kv.2.data))

/-- The transition-trigger words of `_identify_role_in_query`. -/
def transition_words_rag : List Str :=
  ["transition", "switch", "move", "change", "become"].map String.data

/-- The transition-trigger words of `_identify_role_fast` (these include
`"from"`). -/
def transition_words_fast : List Str :=
  ["transition", "switch", "move", "change", "become", "from"].map String.data

/-- The target-role extraction patterns of `_identify_role_in_query`. -/
def target_patterns_rag : List Str :=
  ["(?:to|become|switch to|transition to|move to)\\s+([a-zA-Z\\s]+?)(?:\\?|$|role|position)",
   "(?:to|become)\\s+(?:a|an)?\\s*([a-zA-Z\\s]+?)(?:\\?|$|role|position)",
   "(?:from\\s+[^to]+\\s+to)\\s+([a-zA-Z\\s]+?)(?:\\?|$|role|position)"].map String.data

/-- The source-role fallback pattern of `_identify_role_in_query`. -/
def source_pattern_rag : Str :=
  "(?:from|current)\\s+([a-zA-Z\\s]+?)\\s+(?:to|become)".data

/-- The target-role extraction patterns of `_identify_role_fast`. -/
def target_patterns_fast : List Str :=
  ["(?:to|become|switch to|transition to|move to)\\s+([a-zA-Z\\s/]+?)(?:\\?|$|role|position)",
   "(?:to|become)\\s+(?:a|an)?\\s*([a-zA-Z\\s/]+?)(?:\\?|$|role|position)"].map String.data

/-- The mapping lookup on an extracted candidate role:
`if key in candidate or candidate in key: return official`. -/
def lookupCandidate (mappings : List (Str × Str)) (candidate : Str) : Option Str :=
  (mappings.find?
      (fun kv => containsSub candidate kv.1 || containsSub kv.1 candidate)).map
    (fun kv => kv.2)

/-- Try the extraction patterns in order; a pattern whose capture finds no
mapping key falls through to the next pattern, as the Python loop does. -/
def tryPatterns (reSearch : Str → Str → Option Str) (pats : List Str)
    (mappings : List (Str × Str)) (q : Str) : Option Str :=
  match pats with
  | [] => none
  | p :: rest =>
    match reSearch p q with
    | some captured =>
      match lookupCandidate mappings (pyLower (pyStrip captured)) with
      | some official => some official
      | none => tryPatterns reSearch rest mappings q
    | none => tryPatterns reSearch rest mappings q

/-- Direct matching: the first mapping key occurring in the query. -/
def directMatch (mappings : List (Str × Str)) (q : Str) : Option Str :=
  (mappings.find? (fun kv => containsSub q kv.1)).map (fun kv => kv.2)

/-- Model of `PersonaPathRAG._identify_role_in_query`. -/
def identify_role_in_query (reSearch : Str → Str → Option Str) (q : Str) :
    Option Str :=
  let transitionResult :=
    if transition_words_rag.any (fun w => containsSub q w) then
      match tryPatterns reSearch target_patterns_rag role_mappings_rag q with
      | some official => some official
      | none =>
        match reSearch source_pattern_rag q with
        | some captured => lookupCandidate role_mappings_rag (pyLower (pyStrip captured))
        | none => none
    else none
  match transitionResult with
  | some official => some official
  | none => directMatch role_mappings_rag q

/-- Model of `FastPersonaPath._identify_role_fast`. -/
def identify_role_fast (reSearch : Str → Str → Option Str) (q : Str) :
    Option Str :=
  let transitionResult :=
    if transition_words_fast.any (fun w => containsSub q w) then
      tryPatterns reSearch target_patterns_fast role_mapping_fast q
    else none
  match transitionResult with
  | some official => some official
  | none => directMatch role_mapping_fast q

/-- A regex engine that never matches, used to instantiate `reSearch` on
inputs whose evaluation does not reach the regex branch. -/
def noSearch : Str → Str → Option Str := fun _ _ => none

/-- The mapping keys present only in the fast variant. -/
def fast_only_keys : List Str :=
  ["programmer", "coding", "programming", "ml engineer", "machine learning",
   "data analysis", "ux designer", "ui designer", "retail", "customer service",
   "hr", "dev ops", "testing", "content"].map String.data

/-! ## CareerPlanner._bfs_path_search (`src/core/career_planner.py`)

The adjacency dictionary is modelled as an association list (first entry
wins, as dict keys are unique); `paths.get(role, [])` is `dictGet`.  The
Python `while queue` loop terminates because every node appended to the
queue is simultaneously added to `visited` and nodes are drawn from the
dictionary's value lists; the loop is modelled with a fuel parameter that
provably suffices (see `bfs_path_search_spec`). -/

/-- Model of `paths.get(key, [])` on the adjacency dictionary. -/
def dictGet {α : Type} [DecidableEq α] (paths : List (α × List α)) (k : α) :
    List α :=
  match paths.find? (fun e => decide (e.1 = k)) with
  | some e => e.2
  | none => []

/-- One pass of the `for next_role in next_roles` loop body: return a found
path to `goal`, or the queue and visited set extended with the unvisited
neighbours. -/
def bfsScan {α : Type} [DecidableEq α] (goal : α) (path : List α) :
    List α → List (α × List α) → Finset α →
    Option (List α) × List (α × List α) × Finset α
  | [], queue, visited => (none, queue, visited)
  | n :: rest, queue, visited =>
    if n = goal then (some (path ++ [n]), queue, visited)
    else if n ∈ visited then bfsScan goal path rest queue visited
    else bfsScan goal path rest (queue ++ [(n, path ++ [n])]) (insert n visited)

/-- The `while queue` loop with explicit fuel. -/
def bfsLoop {α : Type} [DecidableEq α] (paths : List (α × List α)) (goal : α) :
    Nat → List (α × List α) → Finset α → Option (List α)
  | 0, _, _ => none
  | _ + 1, [], _ => none
  | fuel + 1, (c, p) :: rest, visited =>
    match bfsScan goal p (dictGet paths c) rest visited with
    | (some found, _, _) => some found
    | (none, q', v') => bfsLoop paths goal fuel q' v'

/-- All nodes occurring in the dictionary's value lists. -/
def bfsValues {α : Type} (paths : List (α × List α)) : List α :=
  (paths.map (fun pr => pr.2)).flatten

/-- Model of `CareerPlanner._bfs_path_search`.  The initial fuel
`2 + |values|` strictly exceeds the loop measure
`|queue| + |values \ visited|`, so the fuel never runs out before the queue
empties. -/
def bfs_path_search {α : Type} [DecidableEq α] (start goal : α)
    (paths : List (α × List α)) : Option (List α) :=
  if start = goal then some [start]
  else bfsLoop paths goal (2 + (bfsValues paths).length) [(start, [start])] {start}

/-- Executable check that consecutive elements of `p` are edges of the
dictionary (`b ∈ paths.get(a, [])`). -/
def chainB {α : Type} [DecidableEq α] (paths : List (α × List α)) :
    List α → Bool
  | [] => true
  | [_] => true
  | a :: b :: t => decide (b ∈ dictGet paths a) && chainB paths (b :: t)

/-- Executable test that `p` is a path witnessing the claim: it begins with
`start`, ends with `goal`, and every consecutive pair is an edge of the
dictionary. -/
def validPathB {α : Type} [DecidableEq α] (paths : List (α × List α))
    (start goal : α) (p : List α) : Bool :=
  decide (p.head? = some start) && decide (p.getLast? = some goal) && chainB paths p

/-- Propositional form of `validPathB`, used by the proofs. -/
def ValidPath {α : Type} [DecidableEq α] (paths : List (α × List α))
    (start goal : α) (p : List α) : Prop :=
  p.head? = some start ∧ p.getLast? = some goal ∧
    List.Chain' (fun a b => b ∈ dictGet paths a) p

/-- The loop invariant of `bfsLoop`: queue entries carry shortest valid
paths, their lengths are sorted and spread over at most two consecutive
values, the goal is undiscovered, and every visited node that is no longer
in the queue has had all its neighbours discovered (none of them the
goal). -/
structure BfsInv {α : Type} [DecidableEq α] (paths : List (α × List α))
    (start goal : α) (queue : List (α × List α)) (visited : Finset α) : Prop where
  start_mem : start ∈ visited
  goal_not_mem : goal ∉ visited
  entries : ∀ cp ∈ queue, cp.1 ∈ visited ∧ ValidPath paths start cp.1 cp.2 ∧
    ∀ r, ValidPath paths start cp.1 r → cp.2.length ≤ r.length
  len_sorted : List.Sorted (· ≤ ·) (queue.map (fun cp => cp.2.length))
  len_window : ∀ cp ∈ queue, ∀ dp ∈ queue, cp.2.length ≤ dp.2.length + 1
  frontier : ∀ v ∈ visited, (∀ cp ∈ queue, cp.1 ≠ v) →
    ∀ w ∈ dictGet paths v, w ≠ goal ∧ w ∈ visited

/-! # Theorems -/

/-! ## String model lemmas -/

theorem isPrefixList_refl (s : Str) : isPrefixList s s = true := by
  induction s with
  | nil => rfl
  | cons c t ih => simp [isPrefixList, ih]

theorem containsSub_append_right (pre e : Str) :
    containsSub (pre ++ e) e = true := by
  induction pre with
  | nil =>
    cases e with
    | nil => rfl
    | cons c t => simp [containsSub, isPrefixList_refl]
  | cons c t ih => simp [containsSub, ih]

/-! ## C8: blanket `except Exception` handling -/

/-- C8: whenever the wrapped operation of an API endpoint raises an
exception `e`, the endpoint answers HTTP 500 whose detail contains the
exception string; in particular `POST /chat/query` converts any exception
from `rag_pipeline.query_documents` into such a 500 response. -/
theorem exceptWrap_error_500 (A B : Type) (prefixMsg : Str) (onOk : A → B)
    (op : Except Str A) (e : Str) (q ts : Str) :
    (op = .error e →
      exceptWrap prefixMsg onOk op = .httpError 500 (prefixMsg ++ e) ∧
      containsSub (prefixMsg ++ e) e = true) ∧
    chat_query q ts (.error e) =
      .httpError 500 ("Error processing query: ".data ++ e) ∧
    containsSub ("Error processing query: ".data ++ e) e = true := by
  refine ⟨fun h => ?_, rfl, containsSub_append_right _ _⟩
  subst h
  exact ⟨rfl, containsSub_append_right _ _⟩

/-- Witness for C8 at a concrete exception. -/
theorem exceptWrap_error_500_witness :
    exceptWrap "Error processing query: ".data (fun r : Str => r)
        (.error "boom".data) =
      .httpError 500 ("Error processing query: ".data ++ "boom".data) ∧
    containsSub ("Error processing query: ".data ++ "boom".data) "boom".data
      = true :=
  (exceptWrap_error_500 Str Str "Error processing query: ".data (fun r => r)
    (.error "boom".data) "boom".data [] []).1 rfl

/-! ## C5: the placeholder bearer-token scheme -/

/-- C5 counterexample: the token `"user_abc"` begins with `"user_"` but is
not accepted — `int("abc")` raises an uncaught `ValueError` (an HTTP 500),
not a 401, and no user id is returned. -/
theorem get_current_user_counterexample :
    isPrefixList "user_".data "user_abc".data = true ∧
    get_current_user "user_abc".data = .valueError ∧
    ∀ n, get_current_user "user_abc".data ≠ .ok n := by
  refine ⟨rfl, rfl, ?_⟩
  intro n h
  exact AuthOutcome.noConfusion
    ((show get_current_user "user_abc".data = .valueError from rfl).symm.trans h)

/-- C5 (amended): `get_current_user` answers HTTP 401 exactly when the token
does not begin with `"user_"`; a token beginning with `"user_"` is accepted
with the integer parsed from the segment between the first two underscores
when that segment parses, and raises an uncaught `ValueError` otherwise; no
stored user is consulted.  The token issued by `/auth/login` for an
authenticated user with id `n` is `"user_"` followed by the decimal digits
of `n`. -/
theorem get_current_user_token_scheme (token : Str) (n : Nat)
    (sha : Str → Str) (db : UsersTable) (u p : Str) :
    (get_current_user token = .unauthorized ↔
      isPrefixList "user_".data token = false) ∧
    (isPrefixList "user_".data token = true →
      get_current_user token =
        match pyInt ((splitOnChar '_' token).getD 1 []) with
        | some k => .ok k
        | none => .valueError) ∧
    loginToken n = "user_".data ++ (toString n).data ∧
    (∀ tok usr, login sha db u p = .ok (tok, usr) →
      tok = "user_".data ++ (toString usr.id).data ∧
      authenticate_user sha db u p = some usr) := by
  refine ⟨?_, ?_, rfl, ?_⟩
  · cases hb : isPrefixList "user_".data token with
    | false =>
      constructor
      · intro _; rfl
      · intro _; simp [get_current_user, hb]
    | true =>
      constructor
      · intro hcontra
        exfalso
        unfold get_current_user at hcontra
        rw [hb, if_pos rfl] at hcontra
        cases hx : pyInt ((splitOnChar '_' token).getD 1 []) <;>
          rw [hx] at hcontra <;> exact AuthOutcome.noConfusion hcontra
      · intro hfalse; exact Bool.noConfusion hfalse
  · intro h
    unfold get_current_user
    rw [h, if_pos rfl]
  · intro tok usr h
    unfold login at h
    cases hauth : authenticate_user sha db u p with
    | none => rw [hauth] at h; cases h
    | some w =>
      rw [hauth] at h
      cases h
      exact ⟨rfl, rfl⟩

/-- Witness for C5's amended theorem: the token `"user_12"` is accepted as
user id 12. -/
theorem get_current_user_token_scheme_witness :
    get_current_user "user_12".data = .ok 12 :=
  ((get_current_user_token_scheme "user_12".data 0 (fun s => s)
      ⟨[], 0, 0⟩ [] []).2.1 rfl).trans (by decide)

/-! ## C6: unsalted SHA-256 password authentication -/

/-- C6: the stored `password_hash` is the unsalted digest of the password
alone; `authenticate_user` succeeds exactly when a stored row has the given
username and the digest of the given password; two accounts registered with
equal passwords store equal hashes.  `sha` is the external
`hashlib.sha256(...).hexdigest()` function. -/
theorem authenticate_user_spec (sha : Str → Str) (db : UsersTable) (u p : Str) :
    ((authenticate_user sha db u p).isSome ↔
      ∃ r ∈ db.rows, r.username = u ∧ r.password_hash = sha p) ∧
    (∀ r, authenticate_user sha db u p = some r →
      r ∈ db.rows ∧ r.username = u ∧ r.password_hash = sha p) ∧
    (∀ dbA dbB uA uB roleA roleB pw,
      (register_user sha dbA uA pw roleA).1 = true →
      (register_user sha dbB uB pw roleB).1 = true →
      ∃ rowA rowB,
        (register_user sha dbA uA pw roleA).2.rows = dbA.rows ++ [rowA] ∧
        (register_user sha dbB uB pw roleB).2.rows = dbB.rows ++ [rowB] ∧
        rowA.username = uA ∧ rowB.username = uB ∧
        rowA.password_hash = sha pw ∧
        rowB.password_hash = rowA.password_hash) := by
  refine ⟨?_, ?_, ?_⟩
  · rw [Option.isSome_iff_exists]
    constructor
    · rintro ⟨r, hr⟩
      have hmem := List.mem_of_find?_eq_some hr
      have hp := List.find?_some hr
      simp only [decide_eq_true_eq] at hp
      exact ⟨r, hmem, hp⟩
    · rintro ⟨r, hmem, hp⟩
      cases hfind : authenticate_user sha db u p with
      | some w => exact ⟨w, rfl⟩
      | none =>
        rw [authenticate_user, List.find?_eq_none] at hfind
        exact absurd (by simpa using hp) (hfind r hmem)
  · intro r hr
    have hmem := List.mem_of_find?_eq_some hr
    have hp := List.find?_some hr
    simp only [decide_eq_true_eq] at hp
    exact ⟨hmem, hp⟩
  · intro dbA dbB uA uB roleA roleB pw hA hB
    by_cases hcA : dbA.rows.any (fun r => r.username = uA)
    · rw [register_user, if_pos hcA] at hA; cases hA
    · by_cases hcB : dbB.rows.any (fun r => r.username = uB)
      · rw [register_user, if_pos hcB] at hB; cases hB
      · refine ⟨⟨dbA.nextId, uA, sha pw, roleA, dbA.now⟩,
                ⟨dbB.nextId, uB, sha pw, roleB, dbB.now⟩, ?_, ?_, rfl, rfl, rfl, rfl⟩
        · rw [register_user, if_neg hcA]; rfl
        · rw [register_user, if_neg hcB]; rfl

/-- Witness for C6: two fresh accounts with the same password end up with
identical stored hashes. -/
theorem authenticate_user_spec_witness :
    ∃ rowA rowB,
      (register_user (fun s => s) ⟨[], 0, 0⟩ "alice".data "pw".data "Admin".data).2.rows
        = ([] : List UserRow) ++ [rowA] ∧
      (register_user (fun s => s) ⟨[], 5, 7⟩ "bob".data "pw".data "Employee".data).2.rows
        = ([] : List UserRow) ++ [rowB] ∧
      rowA.username = "alice".data ∧ rowB.username = "bob".data ∧
      rowA.password_hash = (fun s : Str => s) "pw".data ∧
      rowB.password_hash = rowA.password_hash :=
  (authenticate_user_spec (fun s => s) ⟨[], 0, 0⟩ [] []).2.2
    ⟨[], 0, 0⟩ ⟨[], 5, 7⟩ "alice".data "bob".data "Admin".data "Employee".data
    "pw".data rfl rfl

/-! ## C7: duplicate-username registration -/

/-- C7: registering an already-stored username returns `False` and leaves
the `users` table unchanged, and the `/auth/register` endpoint answers
HTTP 400; registering a fresh username appends exactly one row and returns
`True`. -/
theorem register_user_unique (sha : Str → Str) (db : UsersTable)
    (u p role : Str) :
    ((∃ r ∈ db.rows, r.username = u) →
      register_user sha db u p role = (false, db) ∧
      (register_endpoint sha db u p role).1 =
        .httpError 400 "Username already exists".data ∧
      (register_endpoint sha db u p role).2 = db) ∧
    ((¬ ∃ r ∈ db.rows, r.username = u) →
      (register_user sha db u p role).1 = true ∧
      ∃ row, row.username = u ∧
        (register_user sha db u p role).2.rows = db.rows ++ [row]) := by
  constructor
  · intro hex
    have hc : db.rows.any (fun r => r.username = u) = true := by
      rw [List.any_eq_true]
      obtain ⟨r, hmem, hu⟩ := hex
      exact ⟨r, hmem, by simpa using hu⟩
    have hreg : register_user sha db u p role = (false, db) := by
      rw [register_user, if_pos hc]
    refine ⟨hreg, ?_, ?_⟩ <;> simp [register_endpoint, hreg]
  · intro hex
    have hc : ¬ db.rows.any (fun r => r.username = u) = true := by
      rw [List.any_eq_true]
      rintro ⟨r, hmem, hu⟩
      exact hex ⟨r, hmem, by simpa using hu⟩
    constructor
    · rw [register_user, if_neg hc]
    · exact ⟨⟨db.nextId, u, sha p, role, db.now⟩, rfl, by rw [register_user, if_neg hc]; rfl⟩

/-- Witness for C7: registering the stored username `"bob"` again fails with
HTTP 400 and an unchanged table. -/
theorem register_user_unique_witness :
    register_user (fun s => s)
        ⟨[⟨1, "bob".data, "h".data, "Admin".data, 0⟩], 2, 3⟩
        "bob".data "pw".data "Admin".data
      = (false, ⟨[⟨1, "bob".data, "h".data, "Admin".data, 0⟩], 2, 3⟩) ∧
    (register_endpoint (fun s => s)
        ⟨[⟨1, "bob".data, "h".data, "Admin".data, 0⟩], 2, 3⟩
        "bob".data "pw".data "Admin".data).1
      = .httpError 400 "Username already exists".data ∧
    (register_endpoint (fun s => s)
        ⟨[⟨1, "bob".data, "h".data, "Admin".data, 0⟩], 2, 3⟩
        "bob".data "pw".data "Admin".data).2
      = ⟨[⟨1, "bob".data, "h".data, "Admin".data, 0⟩], 2, 3⟩ :=
  (register_user_unique (fun s => s)
      ⟨[⟨1, "bob".data, "h".data, "Admin".data, 0⟩], 2, 3⟩
      "bob".data "pw".data "Admin".data).1
    ⟨⟨1, "bob".data, "h".data, "Admin".data, 0⟩, by simp, rfl⟩

/-! ## C2 and C10: skill gap analysis -/

theorem length_filter_add_length_filter_not {α : Type} (p : α → Bool)
    (l : List α) :
    (l.filter p).length + (l.filter (fun x => !p x)).length = l.length := by
  induction l with
  | nil => rfl
  | cons a t ih =>
    by_cases h : p a <;> simp [List.filter, h, ← ih] <;> omega

/-- C2 counterexample: with stored `skills_required = "Go, C"` and no
current skills, the code's `missing_skills` is `["Go"]` — the single-letter
skill `"C"` is dropped by `_parse_skills` — while the comma-split set
difference of the claim is `["Go", "C"]`. -/
theorem analyze_skill_gap_counterexample :
    ∃ res, analyze_skill_gap [] 1
        [⟨1, "X".data, none, none, none, some "Go, C".data, 0⟩] = .ok res ∧
      res.missing_skills = ["Go".data] ∧
      commaSplitMissing "Go, C".data [] = ["Go".data, "C".data] ∧
      res.missing_skills ≠ commaSplitMissing "Go, C".data [] := by
  refine ⟨_, rfl, ?_, ?_, ?_⟩ <;> decide

/-- C2 (amended): for a stored target role, `missing_skills` is the set
difference between the parsed required skills — split on the first present
delimiter among `, ; \n • -`, trimmed, bullet/number prefixes stripped, and
entries of length ≤ 1 dropped — and the caller's current skills, membership
compared after lowercasing and trimming; `matching_skills` and
`missing_skills` are the complementary filters of the parsed list,
preserving its order, and their lengths add up to the parsed length. -/
theorem analyze_skill_gap_missing_spec (current : List Str) (target_id : Nat)
    (roles : List JobRole) (role : JobRole)
    (hrole : roles.find? (fun r => decide (r.id = target_id)) = some role) :
    ∃ res, analyze_skill_gap current target_id roles = .ok res ∧
      res.missing_skills =
        (parse_skills (role.skills_required.getD [])).filter
          (fun s => !((current.map (fun c => pyStrip (pyLower c))).contains
            (pyStrip (pyLower s)))) ∧
      res.matching_skills =
        (parse_skills (role.skills_required.getD [])).filter
          (fun s => (current.map (fun c => pyStrip (pyLower c))).contains
            (pyStrip (pyLower s))) ∧
      (∀ s, s ∈ res.missing_skills ↔
        s ∈ parse_skills (role.skills_required.getD []) ∧
          pyStrip (pyLower s) ∉ current.map (fun c => pyStrip (pyLower c))) ∧
      res.matching_skills.length + res.missing_skills.length =
        (parse_skills (role.skills_required.getD [])).length := by
  unfold analyze_skill_gap
  rw [hrole]
  refine ⟨_, rfl, rfl, rfl, ?_, ?_⟩
  · intro s
    simp [List.mem_filter, List.elem_iff]
  · exact length_filter_add_length_filter_not _ _

/-- Witness for C2's amended theorem at a concrete role and skill list. -/
theorem analyze_skill_gap_missing_spec_witness :
    ∃ res, analyze_skill_gap ["python".data] 1
        [⟨1, "X".data, none, none, none, some "Python, SQL".data, 0⟩] = .ok res ∧
      res.missing_skills =
        (parse_skills ((some "Python, SQL".data).getD [])).filter
          (fun s => !((["python".data].map (fun c => pyStrip (pyLower c))).contains
            (pyStrip (pyLower s)))) ∧
      res.matching_skills =
        (parse_skills ((some "Python, SQL".data).getD [])).filter
          (fun s => ((["python".data].map (fun c => pyStrip (pyLower c))).contains
            (pyStrip (pyLower s)))) ∧
      (∀ s, s ∈ res.missing_skills ↔
        s ∈ parse_skills ((some "Python, SQL".data).getD []) ∧
          pyStrip (pyLower s) ∉ ["python".data].map (fun c => pyStrip (pyLower c))) ∧
      res.matching_skills.length + res.missing_skills.length =
        (parse_skills ((some "Python, SQL".data).getD [])).length :=
  analyze_skill_gap_missing_spec ["python".data] 1
    [⟨1, "X".data, none, none, none, some "Python, SQL".data, 0⟩]
    ⟨1, "X".data, none, none, none, some "Python, SQL".data, 0⟩ rfl

theorem roundTo1_nonneg {q : ℚ} (h : 0 ≤ q) : 0 ≤ roundTo1 q := by
  unfold roundTo1
  have h1 : (0 : ℤ) ≤ round (q * 10) := by
    rw [round_eq]
    have : ((0 : ℤ) : ℚ) ≤ q * 10 + 1 / 2 := by push_cast; linarith
    calc (0 : ℤ) = ⌊((0 : ℤ) : ℚ)⌋ := by simp
    _ ≤ ⌊q * 10 + 1 / 2⌋ := Int.floor_le_floor this
  have : (0 : ℚ) ≤ (round (q * 10) : ℚ) := by exact_mod_cast h1
  linarith

theorem roundTo1_le_100 {q : ℚ} (h : q ≤ 100) : roundTo1 q ≤ 100 := by
  unfold roundTo1
  have h1 : round (q * 10) ≤ (1000 : ℤ) := by
    rw [round_eq]
    have hfl : ⌊q * 10 + 1 / 2⌋ ≤ ⌊(2001 : ℚ) / 2⌋ :=
      Int.floor_le_floor (by linarith)
    have : ⌊(2001 : ℚ) / 2⌋ = 1000 := by
      rw [Int.floor_eq_iff] <;> norm_num
    omega
  have h2 : ((round (q * 10) : ℤ) : ℚ) ≤ 1000 := by exact_mod_cast h1
  linarith

/-- C10: `analyze_skill_gap` never divides by zero — with an empty parsed
required-skills list the divisor is 1 and the percentage is 0 — and in every
successful result `match_percentage` lies in `[0, 100]` and
`total_required_skills` is the number of matching plus missing skills. -/
theorem analyze_skill_gap_safe (current : List Str) (target_id : Nat)
    (roles : List JobRole) (role : JobRole)
    (hrole : roles.find? (fun r => decide (r.id = target_id)) = some role) :
    ∃ res, analyze_skill_gap current target_id roles = .ok res ∧
      0 ≤ res.match_percentage ∧ res.match_percentage ≤ 100 ∧
      res.total_required_skills =
        res.matching_skills.length + res.missing_skills.length ∧
      (parse_skills (role.skills_required.getD []) = [] →
        res.match_percentage = 0) := by
  unfold analyze_skill_gap
  rw [hrole]
  refine ⟨_, rfl, ?_, ?_, ?_, ?_⟩
  · apply roundTo1_nonneg
    positivity
  · apply roundTo1_le_100
    by_cases hP : parse_skills (role.skills_required.getD []) = []
    · simp [hP]
    · rw [if_pos hP]
      have hlen : 0 < (parse_skills (role.skills_required.getD [])).length :=
        List.length_pos.mpr hP
      have hle :
          (((parse_skills (role.skills_required.getD [])).filter
            (fun s => (current.map (fun c => pyStrip (pyLower c))).contains
              (pyStrip (pyLower s)))).length : ℚ) ≤
          ((parse_skills (role.skills_required.getD [])).length : ℚ) := by
        exact_mod_cast List.length_filter_le _ _
      have hdiv :
          (((parse_skills (role.skills_required.getD [])).filter
            (fun s => (current.map (fun c => pyStrip (pyLower c))).contains
              (pyStrip (pyLower s)))).length : ℚ) /
          ((parse_skills (role.skills_required.getD [])).length : ℚ) ≤ 1 :=
        div_le_one_of_le hle (by positivity)
      calc _ ≤ (1 : ℚ) * 100 := by
              apply mul_le_mul_of_nonneg_right hdiv
              norm_num
      _ = 100 := by norm_num
  · exact (length_filter_add_length_filter_not _ _).symm
  · intro hP
    simp [hP, roundTo1]

/-- Witness for C10 at a concrete role with no required skills (empty
parse, divisor replaced by 1). -/
theorem analyze_skill_gap_safe_witness :
    ∃ res, analyze_skill_gap [] 2
        [⟨2, "Y".data, none, none, none, none, 0⟩] = .ok res ∧
      0 ≤ res.match_percentage ∧ res.match_percentage ≤ 100 ∧
      res.total_required_skills =
        res.matching_skills.length + res.missing_skills.length ∧
      (parse_skills ((none : Option Str).getD []) = [] →
        res.match_percentage = 0) :=
  analyze_skill_gap_safe [] 2 [⟨2, "Y".data, none, none, none, none, 0⟩]
    ⟨2, "Y".data, none, none, none, none, 0⟩ rfl

/-! ## C3: mentor matching -/

/-- C3 counterexample: with `limit = 1` and two mentors of positive score,
the result cannot contain all positively-scored mentors — mentor 2 scores
5 > 0 but is absent. -/
theorem find_mentors_counterexample :
    find_mentors [⟨1, "a".data, [], "x,y,z".data, []⟩,
        ⟨2, "b".data, [], "x,y,z".data, []⟩] ⟨[], []⟩ none 1
      = [{ mentor := ⟨1, "a".data, [], "x,y,z".data, []⟩, match_score := 5 }] ∧
    0 < calculate_mentor_score ⟨2, "b".data, [], "x,y,z".data, []⟩ ⟨[], []⟩ none ∧
    ∀ sm ∈ find_mentors [⟨1, "a".data, [], "x,y,z".data, []⟩,
        ⟨2, "b".data, [], "x,y,z".data, []⟩] ⟨[], []⟩ none 1,
      sm.mentor ≠ ⟨2, "b".data, [], "x,y,z".data, []⟩ := by
  refine ⟨?_, ?_, ?_⟩ <;> decide

/-- C3 (amended): `find_mentors` returns at most `limit` mentors, sorted in
non-increasing `match_score` order, each drawn from the input with a
strictly positive score equal to `_calculate_mentor_score`; it contains all
positively-scored mentors whenever at most `limit` of them score positively,
and in general the `limit` highest-scoring ones: the result has exactly
`min limit #positives` entries, and any positively-scored mentor left out
scores no more than every mentor returned.  The score is the additive sum
of the fixed bonuses: +30 if the lowercased target role occurs in the
mentor's `current_role`, +20 if it occurs in `previous_roles`, +5 per
target-role keyword occurring in `expertise`, +10 per user-current-role
keyword occurring in `previous_roles` (when both are nonempty), +8 per goal
keyword occurring in `expertise` (when goals are nonempty), and +5 if
`previous_roles` splits on commas into more than two parts. -/
theorem find_mentors_spec (mentors : List Mentor) (prof : UserProfile)
    (target : Option Str) (limit : Nat) :
    (find_mentors mentors prof target limit).length ≤ limit ∧
    List.Sorted (fun a b => b.match_score ≤ a.match_score)
      (find_mentors mentors prof target limit) ∧
    (∀ sm ∈ find_mentors mentors prof target limit,
      0 < sm.match_score ∧ sm.mentor ∈ mentors ∧
      sm.match_score = calculate_mentor_score sm.mentor prof target) ∧
    ((mentors.filter
        (fun m => decide (0 < calculate_mentor_score m prof target))).length
          ≤ limit →
      ∀ m ∈ mentors, 0 < calculate_mentor_score m prof target →
        ({ mentor := m,
           match_score := calculate_mentor_score m prof target } : ScoredMentor)
          ∈ find_mentors mentors prof target limit) ∧
    (∀ m : Mentor, calculate_mentor_score m prof target =
      (match target with
       | none => 0
       | some tr =>
         (if containsSub (pyLower m.current_role) (pyLower tr) then 30 else 0) +
         (if containsSub (pyLower m.previous_roles) (pyLower tr) then 20 else 0) +
         5 * (extract_role_keywords tr).countP
            (fun kw => containsSub (pyLower m.expertise) kw)) +
      (if pyLower prof.current_role ≠ [] ∧ pyLower m.previous_roles ≠ [] then
         10 * (extract_role_keywords (pyLower prof.current_role)).countP
            (fun kw => containsSub (pyLower m.previous_roles) kw)
       else 0) +
      (if pyLower prof.goals ≠ [] then
         8 * (extract_keywords (pyLower prof.goals)).countP
            (fun kw => containsSub (pyLower m.expertise) kw)
       else 0) +
      (if 2 < (splitOnChar ',' (pyLower m.previous_roles)).length then 5
       else 0)) ∧
    (find_mentors mentors prof target limit).length
      = min limit (mentors.filter
          (fun m => decide (0 < calculate_mentor_score m prof target))).length ∧
    (∀ m ∈ mentors, 0 < calculate_mentor_score m prof target →
      (∀ sm ∈ find_mentors mentors prof target limit, sm.mentor ≠ m) →
      ∀ sm ∈ find_mentors mentors prof target limit,
        calculate_mentor_score m prof target ≤ sm.match_score) := by
  refine ⟨?_, ?_, ?_, ?_, fun m => rfl, ?_, ?_⟩
  · exact List.length_take_le _ _
  · have hs := List.sorted_insertionSort
      (fun a b : ScoredMentor => b.match_score ≤ a.match_score)
      ((mentors.filter
        (fun m => decide (0 < calculate_mentor_score m prof target))).map
        (fun m => { mentor := m,
                    match_score := calculate_mentor_score m prof target }))
    exact List.Pairwise.sublist (List.take_sublist _ _) hs
  · intro sm hsm
    have hmem : sm ∈ sortByScoreDesc
        ((mentors.filter
          (fun m => decide (0 < calculate_mentor_score m prof target))).map
          (fun m => { mentor := m,
                      match_score := calculate_mentor_score m prof target })) :=
      List.mem_of_mem_take hsm
    have hmem2 := (List.perm_insertionSort
      (fun a b : ScoredMentor => b.match_score ≤ a.match_score) _).mem_iff.mp hmem
    obtain ⟨m, hmf, rfl⟩ := List.mem_map.mp hmem2
    obtain ⟨hm, hpos⟩ := List.mem_filter.mp hmf
    simp only [decide_eq_true_eq] at hpos
    exact ⟨hpos, hm, rfl⟩
  · intro hlen m hm hpos
    set scored := (mentors.filter
      (fun m => decide (0 < calculate_mentor_score m prof target))).map
      (fun m => ({ mentor := m,
                   match_score := calculate_mentor_score m prof target }
        : ScoredMentor)) with hscored
    have hslen : (sortByScoreDesc scored).length = scored.length :=
      (List.perm_insertionSort _ _).length_eq
    have hlen2 : (sortByScoreDesc scored).length ≤ limit := by
      rw [hslen, hscored, List.length_map]
      exact hlen
    have htake : (sortByScoreDesc scored).take limit = sortByScoreDesc scored :=
      List.take_all_of_le hlen2
    have hmemscored : (⟨m, calculate_mentor_score m prof target⟩ : ScoredMentor)
        ∈ scored := by
      rw [hscored]
      exact List.mem_map.mpr ⟨m, List.mem_filter.mpr ⟨hm, by simpa using hpos⟩, rfl⟩
    have hsorted : (⟨m, calculate_mentor_score m prof target⟩ : ScoredMentor)
        ∈ sortByScoreDesc scored :=
      (List.perm_insertionSort _ _).mem_iff.mpr hmemscored
    show (⟨m, calculate_mentor_score m prof target⟩ : ScoredMentor)
      ∈ (sortByScoreDesc scored).take limit
    rw [htake]
    exact hsorted
  · set scored := (mentors.filter
      (fun m => decide (0 < calculate_mentor_score m prof target))).map
      (fun m => ({ mentor := m,
                   match_score := calculate_mentor_score m prof target }
        : ScoredMentor)) with hscored
    have hslen : (sortByScoreDesc scored).length = scored.length :=
      (List.perm_insertionSort _ _).length_eq
    show (List.take limit (sortByScoreDesc scored)).length = _
    rw [List.length_take, hslen, hscored, List.length_map]
  · intro m hm hpos homit sm hsm
    set scored := (mentors.filter
      (fun m => decide (0 < calculate_mentor_score m prof target))).map
      (fun m => ({ mentor := m,
                   match_score := calculate_mentor_score m prof target }
        : ScoredMentor)) with hscored
    have hfm : find_mentors mentors prof target limit
        = List.take limit (sortByScoreDesc scored) := by
      rw [hscored]
      rfl
    have hsort : List.Sorted
        (fun a b : ScoredMentor => b.match_score ≤ a.match_score)
        (sortByScoreDesc scored) := List.sorted_insertionSort _ _
    have hperm : (sortByScoreDesc scored).Perm scored :=
      List.perm_insertionSort _ _
    have hescored : (⟨m, calculate_mentor_score m prof target⟩ : ScoredMentor)
        ∈ scored := by
      rw [hscored]
      exact List.mem_map.mpr ⟨m, List.mem_filter.mpr ⟨hm, by simpa using hpos⟩, rfl⟩
    have hesrt : (⟨m, calculate_mentor_score m prof target⟩ : ScoredMentor)
        ∈ sortByScoreDesc scored := hperm.mem_iff.mpr hescored
    have hsplit : List.take limit (sortByScoreDesc scored)
        ++ List.drop limit (sortByScoreDesc scored) = sortByScoreDesc scored :=
      List.take_append_drop _ _
    have hpw : List.Pairwise
        (fun a b : ScoredMentor => b.match_score ≤ a.match_score)
        (List.take limit (sortByScoreDesc scored)
          ++ List.drop limit (sortByScoreDesc scored)) := by
      rw [hsplit]
      exact hsort
    rw [← hsplit] at hesrt
    rcases List.mem_append.mp hesrt with htake | hdrop
    · exfalso
      have hne := homit _ (by rw [hfm]; exact htake)
      exact hne rfl
    · have hcross := (List.pairwise_append.mp hpw).2.2
      have hsm' : sm ∈ List.take limit (sortByScoreDesc scored) := by
        rw [← hfm]
        exact hsm
      exact hcross sm hsm' _ hdrop

/-- Witness for C3's amended theorem: with one positively-scored mentor and
`limit = 5`, that mentor is returned; and in the over-limit situation of two
positively-scored mentors with `limit = 1`, the omitted mentor scores no
more than the returned one. -/
theorem find_mentors_spec_witness :
    ((⟨⟨1, "a".data, [], "x,y,z".data, []⟩,
      calculate_mentor_score ⟨1, "a".data, [], "x,y,z".data, []⟩ ⟨[], []⟩ none⟩
        : ScoredMentor)
      ∈ find_mentors [⟨1, "a".data, [], "x,y,z".data, []⟩] ⟨[], []⟩ none 5) ∧
    calculate_mentor_score ⟨2, "b".data, [], "x,y,z".data, []⟩ ⟨[], []⟩ none
      ≤ (⟨⟨1, "a".data, [], "x,y,z".data, []⟩, 5⟩ : ScoredMentor).match_score :=
  ⟨(find_mentors_spec [⟨1, "a".data, [], "x,y,z".data, []⟩]
      ⟨[], []⟩ none 5).2.2.2.1 (by decide)
    ⟨1, "a".data, [], "x,y,z".data, []⟩ (by decide) (by decide),
   (find_mentors_spec [⟨1, "a".data, [], "x,y,z".data, []⟩,
      ⟨2, "b".data, [], "x,y,z".data, []⟩] ⟨[], []⟩ none 1).2.2.2.2.2.2
    ⟨2, "b".data, [], "x,y,z".data, []⟩ (by decide) (by decide) (by decide)
    ⟨⟨1, "a".data, [], "x,y,z".data, []⟩, 5⟩ (by decide)⟩

/-! ## C9: `search_job_roles` and SQL LIKE -/

theorem isPrefixList_iff (p s : Str) : isPrefixList p s = true ↔ p <+: s := by
  induction p generalizing s with
  | nil => simp [isPrefixList]
  | cons a p' ih =>
    cases s with
    | nil => simp [isPrefixList]
    | cons b s' => simp [isPrefixList, List.cons_prefix_cons, ih]

theorem containsSub_iff (hay needle : Str) :
    containsSub hay needle = true ↔ needle <:+: hay := by
  induction hay with
  | nil => simp [containsSub, List.infix_nil, List.isEmpty_iff]
  | cons h t ih =>
    simp [containsSub, List.infix_cons_iff, isPrefixList_iff, ih]

theorem anySuffix_iff (f : Str → Bool) (s : Str) :
    anySuffix f s = true ↔ ∃ t, t <:+ s ∧ f t = true := by
  induction s with
  | nil =>
    simp only [anySuffix]
    constructor
    · intro h; exact ⟨[], List.suffix_rfl, h⟩
    · rintro ⟨t, hts, hf⟩
      rw [List.suffix_nil] at hts
      subst hts; exact hf
  | cons c s' ih =>
    simp only [anySuffix, Bool.or_eq_true, ih]
    constructor
    · rintro (h | ⟨t, hts, hf⟩)
      · exact ⟨c :: s', List.suffix_rfl, h⟩
      · exact ⟨t, hts.trans (List.suffix_cons c s'), hf⟩
    · rintro ⟨t, hts, hf⟩
      rcases List.suffix_cons_iff.mp hts with rfl | hts'
      · exact Or.inl hf
      · exact Or.inr ⟨t, hts', hf⟩

theorem sqlLike_percent_only (t : Str) : sqlLike ['%'] t = true := by
  have h1 : sqlLike ['%'] t = anySuffix (sqlLike []) t := by
    simp [sqlLike]
  rw [h1, anySuffix_iff]
  exact ⟨[], List.nil_suffix, rfl⟩

theorem sqlLike_append_lit (q : Str) (hq : ∀ c ∈ q, c ≠ '%' ∧ c ≠ '_')
    (ps : Str) : ∀ s, (sqlLike (q ++ ps) s = true ↔
      ∃ s', s = q ++ s' ∧ sqlLike ps s' = true) := by
  induction q with
  | nil => intro s; simp
  | cons c q' ih =>
    intro s
    have hc := hq c (List.mem_cons_self c q')
    have hq' : ∀ d ∈ q', d ≠ '%' ∧ d ≠ '_' :=
      fun d hd => hq d (List.mem_cons_of_mem c hd)
    rw [List.cons_append]
    show (if c = '%' then anySuffix (sqlLike (q' ++ ps)) s
      else match s with
        | [] => false
        | d :: s' =>
          if c = '_' then sqlLike (q' ++ ps) s'
          else c = d && sqlLike (q' ++ ps) s') = true ↔ _
    rw [if_neg hc.1]
    cases s with
    | nil =>
      constructor
      · intro h; cases h
      · rintro ⟨s', hs', _⟩; cases hs'
    | cons d s' =>
      dsimp only
      rw [if_neg hc.2]
      simp only [Bool.and_eq_true, decide_eq_true_eq, ih hq' s']
      constructor
      · rintro ⟨rfl, t, rfl, hps⟩
        exact ⟨t, rfl, hps⟩
      · rintro ⟨t, ht, hps⟩
        rw [List.cons_append] at ht
        injection ht with h1 h2
        exact ⟨h1.symm, t, h2, hps⟩

theorem sqlLike_pattern_eq_contains (q s : Str)
    (hq : ∀ c ∈ q, c ≠ '%' ∧ c ≠ '_') :
    sqlLike ('%' :: (q ++ ['%'])) s = containsSub s q := by
  apply Bool.coe_iff_coe.mp
  have l1 : sqlLike ('%' :: (q ++ ['%'])) s
      = anySuffix (sqlLike (q ++ ['%'])) s := by
    simp [sqlLike]
  rw [l1, anySuffix_iff, containsSub_iff]
  constructor
  · rintro ⟨t, hts, hmatch⟩
    obtain ⟨t', ht', _⟩ := (sqlLike_append_lit q hq ['%'] t).mp hmatch
    exact List.infix_iff_prefix_suffix.mpr ⟨t, ⟨t', ht'.symm⟩, hts⟩
  · intro hinf
    obtain ⟨t, hpre, hsuf⟩ := List.infix_iff_prefix_suffix.mp hinf
    obtain ⟨u, hu⟩ := hpre
    exact ⟨t, hsuf,
      (sqlLike_append_lit q hq ['%'] t).mpr ⟨u, hu.symm, sqlLike_percent_only u⟩⟩

theorem lowerChar_eq_of_not_lower (c d : Char)
    (hd : d.toNat < 97 ∨ 122 < d.toNat) (h : lowerChar c = d) : c = d := by
  unfold lowerChar at h
  by_cases hc : 'A' ≤ c ∧ c ≤ 'Z'
  · rw [if_pos hc] at h
    exfalso
    have h1 : 65 ≤ c.toNat := by
      have := hc.1
      rw [Char.le_def] at this
      simpa [Char.toNat] using this
    have h2 : c.toNat ≤ 90 := by
      have := hc.2
      rw [Char.le_def] at this
      simpa [Char.toNat] using this
    have hv : (c.toNat + 32).isValidChar := Or.inl (by omega)
    have htn : (Char.ofNat (c.toNat + 32)).toNat = c.toNat + 32 := by
      simp only [Char.ofNat, hv, dif_pos]
      simp only [Char.ofNatAux, Char.toNat]
      simp [UInt32.toNat]
    have hdn : d.toNat = c.toNat + 32 := by rw [← h, htn]
    omega
  · rw [if_neg hc] at h
    exact h

theorem pyLower_wildcard_free (query : Str)
    (hq : ∀ c ∈ query, c ≠ '%' ∧ c ≠ '_') :
    ∀ c ∈ pyLower query, c ≠ '%' ∧ c ≠ '_' := by
  intro c hc
  obtain ⟨c0, hc0, rfl⟩ := List.mem_map.mp hc
  constructor
  · intro h
    exact (hq c0 hc0).1 (lowerChar_eq_of_not_lower c0 '%' (by decide) h)
  · intro h
    exact (hq c0 hc0).2 (lowerChar_eq_of_not_lower c0 '_' (by decide) h)

theorem likeField_eq_substrField (query : Str)
    (hq : ∀ c ∈ query, c ≠ '%' ∧ c ≠ '_') (f : Option Str) :
    likeField ('%' :: (pyLower query ++ ['%'])) f = substrField query f := by
  cases f with
  | none => rfl
  | some s =>
    show sqlLike ('%' :: (pyLower query ++ ['%'])) (pyLower s)
      = containsSub (pyLower s) (pyLower query)
    exact sqlLike_pattern_eq_contains (pyLower query) (pyLower s)
      (pyLower_wildcard_free query hq)

theorem rowMatches_eq_substrMatches (query : Str)
    (hq : ∀ c ∈ query, c ≠ '%' ∧ c ≠ '_') (r : JobRole) :
    rowMatches ('%' :: (pyLower query ++ ['%'])) r = substrMatches query r := by
  unfold rowMatches substrMatches
  rw [likeField_eq_substrField query hq, likeField_eq_substrField query hq,
    likeField_eq_substrField query hq, likeField_eq_substrField query hq]

theorem caseKey_eq_substrKey (query : Str)
    (hq : ∀ c ∈ query, c ≠ '%' ∧ c ≠ '_') (r : JobRole) :
    caseKey ('%' :: (pyLower query ++ ['%'])) r = substrKey query r := by
  unfold caseKey substrKey
  rw [likeField_eq_substrField query hq, likeField_eq_substrField query hq,
    likeField_eq_substrField query hq]

/-- C9 counterexample: the query `"a_c"` is not a substring of the title
`"abc"`, yet `search_job_roles` returns that role because `_` is a SQL LIKE
wildcard matching any single character. -/
theorem search_job_roles_counterexample :
    search_job_roles "a_c".data [⟨1, "abc".data, none, none, none, none, 0⟩]
      = [⟨1, "abc".data, none, none, none, none, 0⟩] ∧
    substrMatches "a_c".data ⟨1, "abc".data, none, none, none, none, 0⟩
      = false := by
  constructor <;> decide

/-- C9 (amended): for every query containing neither LIKE wildcard (`%` or
`_`), `search_job_roles` returns exactly those stored roles whose lowercased
title, department, description or skills_required contains the lowercased
query as a substring, ordered with title matches first, then department,
then skills, then the remaining (description-only) matches, and within each
group by descending creation time; for queries containing wildcards the
match is SQL LIKE pattern matching instead of plain substring. -/
theorem search_job_roles_spec (query : Str) (rows : List JobRole)
    (hq : ∀ c ∈ query, c ≠ '%' ∧ c ≠ '_') :
    (search_job_roles query rows).Perm (rows.filter (substrMatches query)) ∧
    (∀ r, r ∈ search_job_roles query rows ↔
      r ∈ rows ∧ substrMatches query r = true) ∧
    List.Sorted (substrLe query) (search_job_roles query rows) := by
  have hfe : rows.filter (rowMatches ('%' :: (pyLower query ++ ['%'])))
      = rows.filter (substrMatches query) :=
    List.filter_congr (fun r _ => rowMatches_eq_substrMatches query hq r)
  have hdef : search_job_roles query rows
      = List.insertionSort (searchLe ('%' :: (pyLower query ++ ['%'])))
          (rows.filter (rowMatches ('%' :: (pyLower query ++ ['%'])))) := rfl
  have hperm : (search_job_roles query rows).Perm
      (rows.filter (substrMatches query)) := by
    rw [hdef, ← hfe]
    exact List.perm_insertionSort _ _
  refine ⟨hperm, ?_, ?_⟩
  · intro r
    rw [hperm.mem_iff, List.mem_filter]
  · have hs : List.Sorted (searchLe ('%' :: (pyLower query ++ ['%'])))
        (search_job_roles query rows) := by
      rw [hdef]
      exact List.sorted_insertionSort _ _
    refine List.Pairwise.imp ?_ hs
    intro a b hab
    unfold searchLe at hab
    unfold substrLe
    rw [caseKey_eq_substrKey query hq, caseKey_eq_substrKey query hq] at hab
    exact hab

/-- Witness for C9's amended theorem: a wildcard-free query returns the
role whose title contains it. -/
theorem search_job_roles_spec_witness :
    ⟨1, "Data Analyst".data, none, none, none, none, 0⟩
      ∈ search_job_roles "data".data
        [⟨1, "Data Analyst".data, none, none, none, none, 0⟩] :=
  ((search_job_roles_spec "data".data
      [⟨1, "Data Analyst".data, none, none, none, none, 0⟩]
      (by decide)).2.1
    ⟨1, "Data Analyst".data, none, none, none, none, 0⟩).mpr
    ⟨by decide, by decide⟩

/-! ## C4: role identification across the RAG file variants -/

theorem find?_eq_of_sublist {α : Type} (p : α → Bool) {l1 l2 : List α}
    (hsub : l1.Sublist l2) (hnd : l2.Nodup)
    (hext : ∀ x ∈ l2, x ∉ l1 → p x = false) :
    l2.find? p = l1.find? p := by
  induction hsub with
  | slnil => rfl
  | cons a hs ih =>
    have hnd' := (List.nodup_cons.mp hnd).2
    have ha : a ∉ _ := fun hmem => (List.nodup_cons.mp hnd).1 (hs.subset hmem)
    have hpa : p a = false := hext a (List.mem_cons_self a _) ha
    rw [List.find?_cons_of_neg _ (by simp [hpa])]
    exact ih hnd' (fun x hx hnx => hext x (List.mem_cons_of_mem a hx) hnx)
  | cons₂ a hs ih =>
    by_cases hpa : p a = true
    · rw [List.find?_cons_of_pos _ hpa, List.find?_cons_of_pos _ hpa]
    · rw [List.find?_cons_of_neg _ hpa, List.find?_cons_of_neg _ hpa]
      refine ih (List.nodup_cons.mp hnd).2 ?_
      intro x hx hnx
      have hxa : x ≠ a := by
        rintro rfl
        exact (List.nodup_cons.mp hnd).1 hx
      exact hext x (List.mem_cons_of_mem a hx)
        (fun hmem => hnx (List.mem_of_ne_of_mem hxa hmem))

/-- C4 counterexample: on the normalized query `"retail"` the fast variant
answers `Cashier` (its mapping has a `"retail"` key) while the RAG variant
answers nothing; neither reaches its regex branch on this input, so the
divergence is independent of the regex engine model. -/
theorem identify_role_variants_counterexample :
    identify_role_fast noSearch "retail".data = some "Cashier".data ∧
    identify_role_in_query noSearch "retail".data = none := by
  constructor <;> decide

/-- C4 (amended): the two role-identification variants are not the same
function (they differ on `"retail"`); they do agree on every normalized
query that contains no transition-trigger word of either variant
(`transition switch move change become from`) and none of the fourteen
keywords present only in the fast variant's mapping, whatever the regex
engine does. -/
theorem identify_role_equiv_restricted
    (reSearch : Str → Str → Option Str) (q : Str)
    (htrig : ∀ w ∈ transition_words_fast, containsSub q w = false)
    (hfast : ∀ k ∈ fast_only_keys, containsSub q k = false) :
    identify_role_in_query reSearch q = identify_role_fast reSearch q := by
  have hsubw : transition_words_rag.Sublist transition_words_fast := by decide
  have hragtrig : ∀ w ∈ transition_words_rag, containsSub q w = false :=
    fun w hw => htrig w (hsubw.subset hw)
  have hanyr : transition_words_rag.any (fun w => containsSub q w) = false := by
    rw [List.any_eq_false]
    intro w hw
    simp [hragtrig w hw]
  have hanyf : transition_words_fast.any (fun w => containsSub q w) = false := by
    rw [List.any_eq_false]
    intro w hw
    simp [htrig w hw]
  have hkey : ∀ x ∈ role_mapping_fast, x ∉ role_mappings_rag →
      x.1 ∈ fast_only_keys := by decide
  have hext : ∀ x ∈ role_mapping_fast, x ∉ role_mappings_rag →
      (fun kv : Str × Str => containsSub q kv.1) x = false :=
    fun x hx hn => hfast x.1 (hkey x hx hn)
  have hsubm : role_mappings_rag.Sublist role_mapping_fast := by decide
  have hndf : role_mapping_fast.Nodup := by decide
  have hfind : role_mapping_fast.find? (fun kv => containsSub q kv.1)
      = role_mappings_rag.find? (fun kv => containsSub q kv.1) :=
    find?_eq_of_sublist _ hsubm hndf hext
  unfold identify_role_in_query identify_role_fast
  rw [hanyr, hanyf]
  simp only [Bool.false_eq_true, if_false]
  unfold directMatch
  rw [hfind]

/-- Witness for C4's amended theorem: both variants give the same answer to
a trigger-free query mentioning a shared keyword. -/
theorem identify_role_equiv_restricted_witness :
    identify_role_in_query noSearch "tell me about cashier".data
      = identify_role_fast noSearch "tell me about cashier".data :=
  identify_role_equiv_restricted noSearch "tell me about cashier".data
    (by decide) (by decide)

/-! ## C1: BFS career-path search -/

theorem chainB_iff {α : Type} [DecidableEq α] (paths : List (α × List α)) :
    ∀ p : List α, (chainB paths p = true ↔
      List.Chain' (fun a b => b ∈ dictGet paths a) p)
  | [] => by simp [chainB]
  | [a] => by simp [chainB]
  | a :: b :: t => by
    simp [chainB, List.chain'_cons, chainB_iff paths (b :: t)]

theorem validPathB_iff {α : Type} [DecidableEq α] (paths : List (α × List α))
    (s g : α) (p : List α) :
    validPathB paths s g p = true ↔ ValidPath paths s g p := by
  unfold validPathB ValidPath
  simp [chainB_iff, and_assoc]

theorem ValidPath.ne_nil {α : Type} [DecidableEq α]
    {paths : List (α × List α)} {s g : α} {p : List α}
    (h : ValidPath paths s g p) : p ≠ [] := by
  rintro rfl
  cases h.1

theorem ValidPath.one_le_length {α : Type} [DecidableEq α]
    {paths : List (α × List α)} {s g : α} {p : List α}
    (h : ValidPath paths s g p) : 1 ≤ p.length := by
  have := h.ne_nil
  cases p with
  | nil => exact absurd rfl this
  | cons a t => simp

theorem ValidPath.singleton {α : Type} [DecidableEq α]
    (paths : List (α × List α)) (s : α) : ValidPath paths s s [s] :=
  ⟨rfl, rfl, List.chain'_singleton s⟩

theorem ValidPath.append_edge {α : Type} [DecidableEq α]
    {paths : List (α × List α)} {s c : α} {p : List α}
    (h : ValidPath paths s c p) {b : α} (hb : b ∈ dictGet paths c) :
    ValidPath paths s b (p ++ [b]) := by
  obtain ⟨hh, hl, hc⟩ := h
  refine ⟨?_, List.getLast?_concat p, ?_⟩
  · rw [List.head?_append_of_ne_nil]
    · exact hh
    · rintro rfl; cases hh
  · rw [List.chain'_append]
    refine ⟨hc, List.chain'_singleton b, ?_⟩
    intro x hx y hy
    rw [hl] at hx
    cases hx
    cases hy
    exact hb

theorem ValidPath.drop_edge {α : Type} [DecidableEq α]
    {paths : List (α × List α)} {s z : α} {r : List α} {c : α}
    (h : ValidPath paths s z (r ++ [z])) (hr : r.getLast? = some c) :
    ValidPath paths s c r ∧ z ∈ dictGet paths c := by
  obtain ⟨hh, _, hchain⟩ := h
  have hrne : r ≠ [] := by
    rintro rfl
    cases hr
  rw [List.chain'_append] at hchain
  obtain ⟨hc1, _, hlink⟩ := hchain
  refine ⟨⟨?_, hr, hc1⟩, hlink c (by rw [hr]; rfl) z rfl⟩
  rw [List.head?_append_of_ne_nil r hrne] at hh
  exact hh

/-- The central frontier argument: walking along any valid path from the
start to an undiscovered node must cross the queue, and the crossing queue
entry's path is strictly shorter, since queue entries carry shortest
paths. -/
theorem bfs_walk {α : Type} [DecidableEq α] (paths : List (α × List α))
    (s g : α) (queue : List (α × List α)) (visited : Finset α)
    (hstart : s ∈ visited)
    (hfrontier : ∀ v ∈ visited, (∀ cp ∈ queue, cp.1 ≠ v) →
      ∀ w ∈ dictGet paths v, w ≠ g ∧ w ∈ visited)
    (hentries : ∀ cp ∈ queue, ValidPath paths s cp.1 cp.2 ∧
      ∀ r, ValidPath paths s cp.1 r → cp.2.length ≤ r.length) :
    ∀ (R : List α) (z : α), ValidPath paths s z R → z ∉ visited →
      ∃ cp ∈ queue, cp.2.length < R.length := by
  intro R
  induction R using List.reverseRecOn with
  | nil =>
    intro z hv _
    cases hv.1
  | append_singleton r z' ih =>
    intro z hv hz
    have hz' : z' = z := by
      have := hv.2.1
      rw [List.getLast?_concat] at this
      injection this
    subst hz'
    cases hrn : r.getLast? with
    | none =>
      rw [List.getLast?_eq_none_iff] at hrn
      subst hrn
      have : s = z' := by
        have := hv.1
        injection this with h
        exact h.symm
      subst this
      exact absurd hstart hz
    | some c =>
      obtain ⟨hvr, hedge⟩ := ValidPath.drop_edge hv hrn
      by_cases hcv : c ∈ visited
      · by_cases hcq : ∀ cp ∈ queue, cp.1 ≠ c
        · exact absurd (hfrontier c hcv hcq z' hedge).2 hz
        · push_neg at hcq
          obtain ⟨cp, hcp, hcpc⟩ := hcq
          refine ⟨cp, hcp, ?_⟩
          have hshort := (hentries cp hcp).2 r (hcpc ▸ hvr)
          have : r.length < (r ++ [z']).length := by simp
          omega
      · obtain ⟨cp, hcp, hlt⟩ := ih c hvr hcv
        refine ⟨cp, hcp, ?_⟩
        have : r.length < (r ++ [z']).length := by simp
        omega

theorem bfsScan_some {α : Type} [DecidableEq α] (g : α) (p : List α) :
    ∀ (N : List α) (queue : List (α × List α)) (visited : Finset α)
      (f : List α) (q' : List (α × List α)) (v' : Finset α),
      bfsScan g p N queue visited = (some f, q', v') →
      f = p ++ [g] ∧ g ∈ N := by
  intro N
  induction N with
  | nil =>
    intro queue visited f q' v' h
    cases h
  | cons n rest ih =>
    intro queue visited f q' v' h
    rw [bfsScan] at h
    by_cases hg : n = g
    · rw [if_pos hg] at h
      injection h with h1 h2
      injection h1 with h1
      subst hg
      exact ⟨h1.symm, List.mem_cons_self n rest⟩
    · rw [if_neg hg] at h
      by_cases hvis : n ∈ visited
      · rw [if_pos hvis] at h
        obtain ⟨hf, hN⟩ := ih _ _ _ _ _ h
        exact ⟨hf, List.mem_cons_of_mem n hN⟩
      · rw [if_neg hvis] at h
        obtain ⟨hf, hN⟩ := ih _ _ _ _ _ h
        exact ⟨hf, List.mem_cons_of_mem n hN⟩

theorem bfsScan_none {α : Type} [DecidableEq α] (g : α) (p : List α) :
    ∀ (N : List α) (queue : List (α × List α)) (visited : Finset α)
      (q' : List (α × List α)) (v' : Finset α),
      bfsScan g p N queue visited = (none, q', v') →
      (∀ n ∈ N, n ≠ g) ∧
      v' = visited ∪ N.toFinset ∧
      ∃ new : List α, q' = queue ++ new.map (fun n => (n, p ++ [n])) ∧
        new.Nodup ∧ (∀ n, n ∈ new ↔ n ∈ N ∧ n ∉ visited) := by
  intro N
  induction N with
  | nil =>
    intro queue visited q' v' h
    rw [bfsScan] at h
    injection h with h1 h2
    injection h2 with h2 h3
    subst h2; subst h3
    refine ⟨by simp, by simp, [], by simp, List.nodup_nil, by simp⟩
  | cons n rest ih =>
    intro queue visited q' v' h
    rw [bfsScan] at h
    by_cases hg : n = g
    · rw [if_pos hg] at h
      cases h
    · rw [if_neg hg] at h
      by_cases hvis : n ∈ visited
      · rw [if_pos hvis] at h
        obtain ⟨hng, hv', new, hq', hnd, hmem⟩ := ih _ _ _ _ h
        refine ⟨?_, ?_, new, hq', hnd, ?_⟩
        · intro m hm
          rcases List.mem_cons.mp hm with rfl | hm'
          · exact hg
          · exact hng m hm'
        · rw [hv']
          ext x
          simp only [Finset.mem_union, List.mem_toFinset, List.mem_cons]
          constructor
          · rintro (hx | hx)
            · exact Or.inl hx
            · exact Or.inr (Or.inr hx)
          · rintro (hx | rfl | hx)
            · exact Or.inl hx
            · exact Or.inl hvis
            · exact Or.inr hx
        · intro m
          rw [hmem m]
          constructor
          · rintro ⟨hm, hmv⟩
            exact ⟨List.mem_cons_of_mem n hm, hmv⟩
          · rintro ⟨hm, hmv⟩
            rcases List.mem_cons.mp hm with rfl | hm'
            · exact absurd hvis hmv
            · exact ⟨hm', hmv⟩
      · rw [if_neg hvis] at h
        obtain ⟨hng, hv', new, hq', hnd, hmem⟩ := ih _ _ _ _ h
        refine ⟨?_, ?_, n :: new, ?_, ?_, ?_⟩
        · intro m hm
          rcases List.mem_cons.mp hm with rfl | hm'
          · exact hg
          · exact hng m hm'
        · rw [hv']
          ext x
          simp only [Finset.mem_union, Finset.mem_insert, List.mem_toFinset,
            List.mem_cons]
          constructor
          · rintro ((rfl | hx) | hx)
            · exact Or.inr (Or.inl rfl)
            · exact Or.inl hx
            · exact Or.inr (Or.inr hx)
          · rintro (hx | rfl | hx)
            · exact Or.inl (Or.inr hx)
            · exact Or.inl (Or.inl rfl)
            · exact Or.inr hx
        · rw [hq', List.map_cons]
          simp
        · rw [List.nodup_cons]
          refine ⟨?_, hnd⟩
          intro hn
          exact ((hmem n).mp hn).2 (Finset.mem_insert_self n visited)
        · intro m
          constructor
          · intro hm
            rcases List.mem_cons.mp hm with rfl | hm'
            · exact ⟨List.mem_cons_self m rest, hvis⟩
            · obtain ⟨hmr, hmv⟩ := (hmem m).mp hm'
              exact ⟨List.mem_cons_of_mem n hmr,
                fun hc => hmv (Finset.mem_insert_of_mem hc)⟩
          · rintro ⟨hm, hmv⟩
            rcases List.mem_cons.mp hm with rfl | hm'
            · exact List.mem_cons_self m new
            · by_cases hmn : m = n
              · subst hmn
                exact List.mem_cons_self m new
              · refine List.mem_cons_of_mem n ((hmem m).mpr ⟨hm', ?_⟩)
                intro hc
                rcases Finset.mem_insert.mp hc with h1 | hc'
                · exact hmn h1
                · exact hmv hc'

theorem dictGet_subset_values {α : Type} [DecidableEq α]
    (paths : List (α × List α)) (k : α) :
    ∀ n ∈ dictGet paths k, n ∈ bfsValues paths := by
  intro n hn
  unfold dictGet at hn
  cases hfind : paths.find? (fun e => decide (e.1 = k)) with
  | none => rw [hfind] at hn; cases hn
  | some e =>
    rw [hfind] at hn
    have he := List.mem_of_find?_eq_some hfind
    unfold bfsValues
    rw [List.mem_flatten]
    exact ⟨e.2, List.mem_map_of_mem _ he, hn⟩

theorem map_len_enqueued {α : Type} (p : List α) (new : List α) :
    (new.map (fun n => (n, p ++ [n]))).map (fun cp : α × List α => cp.2.length)
      = List.replicate new.length (p.length + 1) := by
  induction new with
  | nil => rfl
  | cons a t ih => simp [List.replicate_succ, ih]

theorem bfs_inv_step {α : Type} [DecidableEq α] (paths : List (α × List α))
    (s g c : α) (p : List α) (rest : List (α × List α)) (visited : Finset α)
    (q' : List (α × List α)) (v' : Finset α)
    (hinv : BfsInv paths s g ((c, p) :: rest) visited)
    (hscan : bfsScan g p (dictGet paths c) rest visited = (none, q', v')) :
    BfsInv paths s g q' v' ∧
    q'.length + ((bfsValues paths).toFinset \ v').card + 1
      = ((c, p) :: rest).length + ((bfsValues paths).toFinset \ visited).card := by
  obtain ⟨hng, hv', new, hq', hnd, hmem⟩ :=
    bfsScan_none g p (dictGet paths c) rest visited q' v' hscan
  have hNsub : ∀ n ∈ dictGet paths c, n ∈ (bfsValues paths).toFinset :=
    fun n hn => List.mem_toFinset.mpr (dictGet_subset_values paths c n hn)
  have hmin : ∀ cp ∈ (c, p) :: rest, p.length ≤ cp.2.length := by
    have hs := hinv.len_sorted
    rw [List.map_cons, List.sorted_cons] at hs
    intro cp hcp
    rcases List.mem_cons.mp hcp with rfl | hm
    · exact le_refl _
    · exact hs.1 _ (List.mem_map_of_mem _ hm)
  have hheadentry := hinv.entries (c, p) (List.mem_cons_self _ _)
  have hnewshort : ∀ n ∈ new, ∀ r, ValidPath paths s n r →
      p.length + 1 ≤ r.length := by
    intro n hn r hr
    have hnv : n ∉ visited := ((hmem n).mp hn).2
    obtain ⟨cp, hcp, hlt⟩ := bfs_walk paths s g ((c, p) :: rest) visited
      hinv.start_mem hinv.frontier
      (fun cp hcp => ⟨(hinv.entries cp hcp).2.1, (hinv.entries cp hcp).2.2⟩)
      r n hr hnv
    have := hmin cp hcp
    omega
  have hwindow_head : ∀ cp ∈ (c, p) :: rest, cp.2.length ≤ p.length + 1 :=
    fun cp hcp => hinv.len_window cp hcp (c, p) (List.mem_cons_self _ _)
  constructor
  · constructor
    · rw [hv']
      exact Finset.mem_union_left _ hinv.start_mem
    · rw [hv']
      intro hg
      rcases Finset.mem_union.mp hg with hg1 | hg2
      · exact hinv.goal_not_mem hg1
      · exact hng g (List.mem_toFinset.mp hg2) rfl
    · intro cp hcp
      rw [hq'] at hcp
      rcases List.mem_append.mp hcp with hcpr | hcpn
      · obtain ⟨hvis, hval, hshort⟩ :=
          hinv.entries cp (List.mem_cons_of_mem _ hcpr)
        exact ⟨by rw [hv']; exact Finset.mem_union_left _ hvis, hval, hshort⟩
      · obtain ⟨n, hn, rfl⟩ := List.mem_map.mp hcpn
        have hnN : n ∈ dictGet paths c := ((hmem n).mp hn).1
        refine ⟨?_, ?_, ?_⟩
        · rw [hv']
          exact Finset.mem_union_right _ (List.mem_toFinset.mpr hnN)
        · exact hheadentry.2.1.append_edge hnN
        · intro r hr
          have := hnewshort n hn r hr
          simp only [List.length_append, List.length_singleton]
          omega
    · rw [hq', List.map_append, map_len_enqueued]
      refine List.pairwise_append.mpr ⟨?_, ?_, ?_⟩
      · have hs := hinv.len_sorted
        rw [List.map_cons, List.sorted_cons] at hs
        exact hs.2
      · exact List.pairwise_replicate.mpr (Or.inr (le_refl _))
      · intro a ha b hb
        obtain ⟨cp, hcp, rfl⟩ := List.mem_map.mp ha
        have := hwindow_head cp (List.mem_cons_of_mem _ hcp)
        have hb' := List.eq_of_mem_replicate hb
        omega
    · intro cp hcp dp hdp
      rw [hq'] at hcp hdp
      have hlen_new : ∀ x ∈ new.map (fun n => (n, p ++ [n])),
          (x : α × List α).2.length = p.length + 1 := by
        intro x hx
        obtain ⟨n, _, rfl⟩ := List.mem_map.mp hx
        simp
      rcases List.mem_append.mp hcp with hcr | hcn <;>
        rcases List.mem_append.mp hdp with hdr | hdn
      · exact hinv.len_window cp (List.mem_cons_of_mem _ hcr)
          dp (List.mem_cons_of_mem _ hdr)
      · have h1 := hwindow_head cp (List.mem_cons_of_mem _ hcr)
        have h2 := hlen_new dp hdn
        omega
      · have h1 := hlen_new cp hcn
        have h2 := hmin dp (List.mem_cons_of_mem _ hdr)
        omega
      · have h1 := hlen_new cp hcn
        have h2 := hlen_new dp hdn
        omega
    · intro v hv hnot
      by_cases hvv : v ∈ visited
      · by_cases hvc : v = c
        · subst hvc
          intro w hw
          refine ⟨hng w hw, ?_⟩
          rw [hv']
          exact Finset.mem_union_right _ (List.mem_toFinset.mpr hw)
        · have hvold : ∀ cp ∈ (c, p) :: rest, cp.1 ≠ v := by
            intro cp hcp
            rcases List.mem_cons.mp hcp with rfl | hm
            · exact fun h => hvc h.symm
            · refine hnot cp ?_
              rw [hq']
              exact List.mem_append_left _ hm
          intro w hw
          obtain ⟨hwg, hwvis⟩ := hinv.frontier v hvv hvold w hw
          refine ⟨hwg, ?_⟩
          rw [hv']
          exact Finset.mem_union_left _ hwvis
      · have hvN : v ∈ (dictGet paths c).toFinset := by
          rw [hv'] at hv
          rcases Finset.mem_union.mp hv with h | h
          · exact absurd h hvv
          · exact h
        have hvnew : v ∈ new := (hmem v).mpr ⟨List.mem_toFinset.mp hvN, hvv⟩
        have hin : (v, p ++ [v]) ∈ q' := by
          rw [hq']
          exact List.mem_append_right _ (List.mem_map_of_mem _ hvnew)
        exact absurd rfl (hnot _ hin)
  · have hnewsub : new.toFinset ⊆ (bfsValues paths).toFinset \ visited := by
      intro x hx
      have hx' := (hmem x).mp (List.mem_toFinset.mp hx)
      exact Finset.mem_sdiff.mpr ⟨hNsub x hx'.1, hx'.2⟩
    have hVsd : (bfsValues paths).toFinset \ v'
        = ((bfsValues paths).toFinset \ visited) \ new.toFinset := by
      ext x
      simp only [Finset.mem_sdiff, hv', Finset.mem_union, List.mem_toFinset]
      constructor
      · rintro ⟨hxV, hxn⟩
        push_neg at hxn
        exact ⟨⟨hxV, hxn.1⟩, fun hc => hxn.2 ((hmem x).mp hc).1⟩
      · rintro ⟨⟨hxV, hxv⟩, hxn⟩
        refine ⟨hxV, ?_⟩
        rintro (h | h)
        · exact hxv h
        · exact hxn ((hmem x).mpr ⟨h, hxv⟩)
    have hcard : ((bfsValues paths).toFinset \ v').card
        = ((bfsValues paths).toFinset \ visited).card - new.length := by
      rw [hVsd, Finset.card_sdiff hnewsub, List.toFinset_card_of_nodup hnd]
    have hle : new.length ≤ ((bfsValues paths).toFinset \ visited).card := by
      rw [← List.toFinset_card_of_nodup hnd]
      exact Finset.card_le_card hnewsub
    have hqlen : q'.length = rest.length + new.length := by
      rw [hq', List.length_append, List.length_map]
    simp only [List.length_cons]
    omega

theorem bfs_inv_init {α : Type} [DecidableEq α] (paths : List (α × List α))
    (s g : α) (hne : s ≠ g) : BfsInv paths s g [(s, [s])] {s} := by
  constructor
  · exact Finset.mem_singleton_self s
  · intro hg
    exact hne (Finset.mem_singleton.mp hg).symm
  · intro cp hcp
    rcases List.mem_cons.mp hcp with rfl | h
    · exact ⟨Finset.mem_singleton_self s, ValidPath.singleton paths s,
        fun r hr => hr.one_le_length⟩
    · cases h
  · simp
  · intro cp hcp dp hdp
    rcases List.mem_cons.mp hcp with rfl | h
    · rcases List.mem_cons.mp hdp with rfl | h'
      · simp
      · cases h'
    · cases h
  · intro v hv hnot
    have hvs : v = s := Finset.mem_singleton.mp hv
    subst hvs
    exact absurd rfl (hnot (v, [v]) (List.mem_cons_self _ _))

theorem bfsLoop_spec {α : Type} [DecidableEq α] (paths : List (α × List α))
    (s g : α) :
    ∀ (fuel : Nat) (queue : List (α × List α)) (visited : Finset α),
      BfsInv paths s g queue visited →
      queue.length + ((bfsValues paths).toFinset \ visited).card < fuel →
      (∀ pm, bfsLoop paths g fuel queue visited = some pm →
          ValidPath paths s g pm ∧
          ∀ r, ValidPath paths s g r → pm.length ≤ r.length) ∧
      (bfsLoop paths g fuel queue visited = none →
          ¬ ∃ r, ValidPath paths s g r) := by
  intro fuel
  induction fuel with
  | zero =>
    intro queue visited _ hm
    exact absurd hm (Nat.not_lt_zero _)
  | succ fuel ih =>
    intro queue visited hinv hm
    cases queue with
    | nil =>
      constructor
      · intro pm h
        exact Option.noConfusion h
      · rintro _ ⟨r, hr⟩
        obtain ⟨cp, hcp, _⟩ := bfs_walk paths s g [] visited hinv.start_mem
          hinv.frontier
          (fun cp hcp => ⟨(hinv.entries cp hcp).2.1, (hinv.entries cp hcp).2.2⟩)
          r g hr hinv.goal_not_mem
        cases hcp
    | cons hd rest =>
      obtain ⟨c, p⟩ := hd
      rcases hres : bfsScan g p (dictGet paths c) rest visited with ⟨o, qv⟩
      obtain ⟨q', v'⟩ := qv
      cases o with
      | some found =>
        have hloop : bfsLoop paths g (fuel + 1) ((c, p) :: rest) visited
            = some found := by
          show (match bfsScan g p (dictGet paths c) rest visited with
            | (some f, _, _) => some f
            | (none, q2, v2) => bfsLoop paths g fuel q2 v2) = some found
          rw [hres]
        obtain ⟨hf, hgN⟩ := bfsScan_some g p _ _ _ _ _ _ hres
        subst hf
        have hminhead : ∀ cp ∈ (c, p) :: rest, p.length ≤ cp.2.length := by
          have hs := hinv.len_sorted
          rw [List.map_cons, List.sorted_cons] at hs
          intro cp hcp
          rcases List.mem_cons.mp hcp with rfl | hmm
          · exact le_refl _
          · exact hs.1 _ (List.mem_map_of_mem _ hmm)
        constructor
        · intro pm h
          rw [hloop] at h
          injection h with h
          subst h
          have hvalid : ValidPath paths s g (p ++ [g]) :=
            (hinv.entries (c, p) (List.mem_cons_self _ _)).2.1.append_edge hgN
          refine ⟨hvalid, ?_⟩
          intro r hr
          obtain ⟨cp, hcp, hlt⟩ := bfs_walk paths s g ((c, p) :: rest) visited
            hinv.start_mem hinv.frontier
            (fun cp hcp =>
              ⟨(hinv.entries cp hcp).2.1, (hinv.entries cp hcp).2.2⟩)
            r g hr hinv.goal_not_mem
          have := hminhead cp hcp
          simp only [List.length_append, List.length_singleton]
          omega
        · intro h
          rw [hloop] at h
          cases h
      | none =>
        have hloop : bfsLoop paths g (fuel + 1) ((c, p) :: rest) visited
            = bfsLoop paths g fuel q' v' := by
          show (match bfsScan g p (dictGet paths c) rest visited with
            | (some f, _, _) => some f
            | (none, q2, v2) => bfsLoop paths g fuel q2 v2)
            = bfsLoop paths g fuel q' v'
          rw [hres]
        obtain ⟨hinv', hdec⟩ :=
          bfs_inv_step paths s g c p rest visited q' v' hinv hres
        have hm' : q'.length + ((bfsValues paths).toFinset \ v').card < fuel := by
          simp only [List.length_cons] at hm hdec
          omega
        rw [hloop]
        exact ih q' v' hinv' hm'

/-- C1: `_bfs_path_search` returns `[start]` when start equals the goal;
otherwise any returned list begins with the start, ends with the goal, its
consecutive pairs are edges of the dictionary, and its length is minimal
among all such paths; and it returns `None` exactly when no such path
exists. -/
theorem bfs_path_search_spec (start goal : Str)
    (paths : List (Str × List Str)) :
    (start = goal → bfs_path_search start goal paths = some [start]) ∧
    (∀ p, bfs_path_search start goal paths = some p →
      validPathB paths start goal p = true ∧
      ∀ q, validPathB paths start goal q = true → p.length ≤ q.length) ∧
    (bfs_path_search start goal paths = none ↔
      ¬ ∃ q, validPathB paths start goal q = true) := by
  by_cases hsg : start = goal
  · subst hsg
    have hres : bfs_path_search start start paths = some [start] := by
      unfold bfs_path_search
      rw [if_pos rfl]
    refine ⟨fun _ => hres, ?_, ?_⟩
    · intro p hp
      rw [hres] at hp
      injection hp with hp
      subst hp
      constructor
      · exact (validPathB_iff paths start start [start]).mpr
          (ValidPath.singleton paths start)
      · intro q hq
        have := ((validPathB_iff paths start start q).mp hq).one_le_length
        simpa using this
    · constructor
      · intro h
        rw [hres] at h
        cases h
      · intro h
        exact absurd ⟨[start], (validPathB_iff paths start start [start]).mpr
          (ValidPath.singleton paths start)⟩ h
  · have hres : bfs_path_search start goal paths
        = bfsLoop paths goal (2 + (bfsValues paths).length)
            [(start, [start])] {start} := by
      unfold bfs_path_search
      rw [if_neg hsg]
    have hinv := bfs_inv_init paths start goal hsg
    have hm : [(start, [start])].length
        + ((bfsValues paths).toFinset \ {start}).card
        < 2 + (bfsValues paths).length := by
      have h1 : ((bfsValues paths).toFinset \ {start}).card
          ≤ (bfsValues paths).toFinset.card :=
        Finset.card_le_card Finset.sdiff_subset
      have h2 := List.toFinset_card_le (bfsValues paths)
      simp only [List.length_singleton]
      omega
    have hspec := bfsLoop_spec paths start goal
      (2 + (bfsValues paths).length) [(start, [start])] {start} hinv hm
    refine ⟨fun h => absurd h hsg, ?_, ?_⟩
    · intro p hp
      rw [hres] at hp
      obtain ⟨hv, hmin⟩ := hspec.1 p hp
      exact ⟨(validPathB_iff paths start goal p).mpr hv,
        fun q hq => hmin q ((validPathB_iff paths start goal q).mp hq)⟩
    · rw [hres]
      constructor
      · rintro hnone ⟨q, hq⟩
        exact hspec.2 hnone ⟨q, (validPathB_iff paths start goal q).mp hq⟩
      · intro hno
        cases hcase : bfsLoop paths goal (2 + (bfsValues paths).length)
            [(start, [start])] {start} with
        | none => rfl
        | some pm =>
          obtain ⟨hv, _⟩ := hspec.1 pm hcase
          exact absurd ⟨pm, (validPathB_iff paths start goal pm).mpr hv⟩ hno

/-- Witness for C1 on a concrete three-node chain dictionary. -/
theorem bfs_path_search_spec_witness :
    validPathB [("a".data, ["b".data]), ("b".data, ["c".data])]
        "a".data "c".data ["a".data, "b".data, "c".data] = true ∧
    bfs_path_search "a".data "c".data
        [("a".data, ["b".data]), ("b".data, ["c".data])]
      = some ["a".data, "b".data, "c".data] :=
  ⟨((bfs_path_search_spec "a".data "c".data
      [("a".data, ["b".data]), ("b".data, ["c".data])]).2.1
      ["a".data, "b".data, "c".data] (by decide)).1,
   by decide⟩
